import Mathlib

/-!
# B-tree of minimum degree 2 (`src/btree/btree.c`)

A shallow embedding of the in-memory B-tree of `btree.c` and a verification of
its insertion, search and deletion routines.

The C program keeps every node in a fixed record

    int keys[2 * t - 1];  int count;  int isLeaf;  struct btree *children[2 * t];

with `#define t 2`.  The embedding keeps that record as it is: three key slots,
a key counter, the leaf flag and four child slots.  Slots at positions beyond
`count` are *not* erased by the C code and so they are not erased here either.

Pointers become values: a child slot holds the subtree it points to, or `NULL`.
A node that C updates through a pointer (`left->count = ...`) is updated here by
storing the new value back into the slot the pointer was read from.  Every node
of a B-tree is reached through exactly one live slot, so this is what the C
code does to the live part of the tree.  A child slot beyond `count` keeps the
value that its pointer had when the slot was last written, whereas in C the
pointer may by now refer to a node that has changed or has been released.  The
one place where such a slot comes back into use is `rotateRight`: its child
shift stops one slot short, so `children[count + 1]` of the right sibling
becomes a child without having been written.  Embedding and code agree there
when the slot still holds the `NULL` of `calloc`, or points to a record that no
other slot refers to; every evaluation below finds a `NULL` there, except the
one of `treeG`, which finds such a record.  `free` has no counterpart: a
released node can only be reached through a slot beyond `count`.

Counters and indices are natural numbers.  Every decrement of a counter in the
source happens on a path on which the counter has been tested to be positive
(`i < node->count`, `count >= t`); the reads at index `count - 1` and `i - 1`
are faults here when the index would be negative.

Dereferencing `NULL` and indexing an array outside its bounds are undefined in
C; the embedding reports them as faults.  The recursive routines that do not
follow the structure of the tree take a fuel argument, and the entry points
supply as much fuel as the tree is high.
-/

namespace BTree

/-- The minimum degree, `#define t 2`. -/
def t : Nat := 2

/-- Ways in which a run of the C program can go wrong. -/
inductive Fault where
  | nullDeref
  | outOfBounds
  | outOfFuel
  deriving DecidableEq, Repr

/-- The node record `struct btree`, or the null pointer. -/
inductive btree where
  | NULL : btree
  | mk (k0 k1 k2 : Int) (count : Nat) (isLeaf : Bool) (c0 c1 c2 c3 : btree) : btree
  deriving DecidableEq, Repr

open btree

/-! ## Field access -/

/-- Read `node->count`. -/
def getCount : btree → Except Fault Nat
  | NULL => .error .nullDeref
  | mk _ _ _ count _ _ _ _ _ => .ok count

/-- Assign `node->count = v`. -/
def setCount : btree → Nat → Except Fault btree
  | NULL, _ => .error .nullDeref
  | mk k0 k1 k2 _ l c0 c1 c2 c3, v => .ok (mk k0 k1 k2 v l c0 c1 c2 c3)

/-- Read `node->isLeaf`. -/
def getLeaf : btree → Except Fault Bool
  | NULL => .error .nullDeref
  | mk _ _ _ _ l _ _ _ _ => .ok l

/-- Read `node->keys[i]`. -/
def getKey : btree → Nat → Except Fault Int
  | NULL, _ => .error .nullDeref
  | mk k0 _ _ _ _ _ _ _ _, 0 => .ok k0
  | mk _ k1 _ _ _ _ _ _ _, 1 => .ok k1
  | mk _ _ k2 _ _ _ _ _ _, 2 => .ok k2
  | mk _ _ _ _ _ _ _ _ _, _ => .error .outOfBounds

/-- Assign `node->keys[i] = v`. -/
def setKey : btree → Nat → Int → Except Fault btree
  | NULL, _, _ => .error .nullDeref
  | mk _ k1 k2 n l c0 c1 c2 c3, 0, v => .ok (mk v k1 k2 n l c0 c1 c2 c3)
  | mk k0 _ k2 n l c0 c1 c2 c3, 1, v => .ok (mk k0 v k2 n l c0 c1 c2 c3)
  | mk k0 k1 _ n l c0 c1 c2 c3, 2, v => .ok (mk k0 k1 v n l c0 c1 c2 c3)
  | mk _ _ _ _ _ _ _ _ _, _, _ => .error .outOfBounds

/-- Read the pointer `node->children[i]` (the pointer itself may be `NULL`). -/
def getChild : btree → Nat → Except Fault btree
  | NULL, _ => .error .nullDeref
  | mk _ _ _ _ _ c0 _ _ _, 0 => .ok c0
  | mk _ _ _ _ _ _ c1 _ _, 1 => .ok c1
  | mk _ _ _ _ _ _ _ c2 _, 2 => .ok c2
  | mk _ _ _ _ _ _ _ _ c3, 3 => .ok c3
  | mk _ _ _ _ _ _ _ _ _, _ => .error .outOfBounds

/-- Assign `node->children[i] = c`. -/
def setChild : btree → Nat → btree → Except Fault btree
  | NULL, _, _ => .error .nullDeref
  | mk k0 k1 k2 n l _ c1 c2 c3, 0, c => .ok (mk k0 k1 k2 n l c c1 c2 c3)
  | mk k0 k1 k2 n l c0 _ c2 c3, 1, c => .ok (mk k0 k1 k2 n l c0 c c2 c3)
  | mk k0 k1 k2 n l c0 c1 _ c3, 2, c => .ok (mk k0 k1 k2 n l c0 c1 c c3)
  | mk k0 k1 k2 n l c0 c1 c2 _, 3, c => .ok (mk k0 k1 k2 n l c0 c1 c2 c)
  | mk _ _ _ _ _ _ _ _ _, _, _ => .error .outOfBounds

/-! ## Loops -/

/-- The loop `for (j = a; j < a + n; j++) body`, run on a state `s`. -/
def forUp {σ : Type} (body : Nat → σ → Except Fault σ) : Nat → Nat → σ → Except Fault σ
  | 0, _, s => .ok s
  | n + 1, j, s => do
      let s1 ← body j s
      forUp body n (j + 1) s1

/-- The loop `for (j = lo + n - 1; j >= lo; j--) body`, run on a state `s`. -/
def forDown {σ : Type} (body : Nat → σ → Except Fault σ) : Nat → Nat → σ → Except Fault σ
  | 0, _, s => .ok s
  | n + 1, lo, s => do
      let s1 ← body (lo + n) s
      forDown body n lo s1

/-- The scan `while (i < node->count && key > node->keys[i]) i++` of `search`
and `delete`; the first argument is `node->count - i`. -/
def scanUp (node : btree) (key : Int) : Nat → Nat → Except Fault Nat
  | 0, i => .ok i
  | n + 1, i => do
      let k ← getKey node i
      if key > k then scanUp node key n (i + 1) else .ok i

/-- The scan `while (i >= 0 && key < node->keys[i]) i--` of `insertNonfull`;
the argument and the result are `i + 1`. -/
def scanDown (node : btree) (key : Int) : Nat → Except Fault Nat
  | 0 => .ok 0
  | n + 1 => do
      let k ← getKey node n
      if key < k then scanDown node key n else .ok (n + 1)

/-- The loop `while (i >= 0 && key < node->keys[i]) { node->keys[i + 1] =
node->keys[i]; i--; }` of `insertNonfull`; the argument and the returned index
are `i + 1`. -/
def shiftDown (key : Int) : Nat → btree → Except Fault (btree × Nat)
  | 0, node => .ok (node, 0)
  | n + 1, node => do
      let k ← getKey node n
      if key < k then do
        let node1 ← setKey node (n + 1) k
        shiftDown key n node1
      else .ok (node, n + 1)

/-! ## Creation, split and insertion -/

/-- The function `newNode`: a zeroed record (`calloc`) with the given leaf flag. -/
def newNode (isLeaf : Bool) : btree :=
  mk 0 0 0 0 isLeaf NULL NULL NULL NULL

/-- The function `splitChild(node, i)`; returns the updated `node`. -/
def splitChild (node : btree) (i : Nat) : Except Fault btree := do
  let left ← getChild node i
  let leftLeaf ← getLeaf left
  let right := newNode leftLeaf
  let right ← forUp (fun j r => do setKey r j (← getKey left (j + t))) (t - 1) 0 right
  let right ←
    if leftLeaf != true then
      forUp (fun j r => do setChild r j (← getChild left (j + t))) t 0 right
    else .ok right
  let left ← setCount left (t - 1)
  let right ← setCount right (t - 1)
  let count ← getCount node
  let node ← forDown (fun j nd => do setKey nd (j + 1) (← getKey nd j)) (count - i) i node
  let node ← setKey node i (← getKey left (t - 1))
  let node ←
    forDown (fun j nd => do setChild nd (j + 1) (← getChild nd j)) (count - i) (i + 1) node
  let node ← setChild node (i + 1) right
  let node ← setCount node (count + 1)
  setChild node i left

/-- The function `insertNonfull(node, key)`; returns the updated `node`. -/
def insertNonfull : Nat → btree → Int → Except Fault btree
  | 0, _, _ => .error .outOfFuel
  | fuel + 1, node, key => do
      let count ← getCount node
      if (← getLeaf node) then
        let (node, i) ← shiftDown key count node
        let node ← setKey node i key
        setCount node (count + 1)
      else
        let i ← scanDown node key count
        let child ← getChild node i
        let (node, i) ←
          if (← getCount child) == 2 * t - 1 then do
            let node ← splitChild node i
            if key > (← getKey node i) then pure (node, i + 1) else pure (node, i)
          else pure (node, i)
        let child ← getChild node i
        let child ← insertNonfull fuel child key
        setChild node i child

/-- Number of nodes on the path from `node` down its first children. -/
def height : btree → Nat
  | NULL => 0
  | mk _ _ _ _ isLeaf c0 _ _ _ => if isLeaf then 1 else height c0 + 1

/-- The function `insert(key)`, on the global `root`; returns the new `root`. -/
def insert (root : btree) (key : Int) : Except Fault btree := do
  let root := if root = NULL then newNode true else root
  let root ←
    if (← getCount root) == 2 * t - 1 then do
      let temp := newNode false
      let temp ← setChild temp 0 root
      splitChild temp 0
    else pure root
  insertNonfull (height root) root key

/-! ## Search and traversal -/

/-- The function `search(node, key)`: `true` for the C result 1, `false` for 0. -/
def search : btree → Int → Except Fault Bool
  | NULL, _ => .error .nullDeref
  | mk k0 k1 k2 count isLeaf c0 c1 c2 c3, key => do
      let node := mk k0 k1 k2 count isLeaf c0 c1 c2 c3
      let i ← scanUp node key count 0
      let found ← if i < count then do pure (key == (← getKey node i)) else pure false
      if found then pure true
      else if isLeaf then pure false
      else
        match i with
        | 0 => search c0 key
        | 1 => search c1 key
        | 2 => search c2 key
        | 3 => search c3 key
        | _ => .error .outOfBounds

/-- The function `traverse(node)`; the printed keys are returned as a list. -/
def traverse : btree → Except Fault (List Int)
  | NULL => .ok []
  | mk k0 k1 k2 count isLeaf c0 c1 c2 c3 =>
      let node := mk k0 k1 k2 count isLeaf c0 c1 c2 c3
      let sub : Nat → Except Fault (List Int) := fun i =>
        match i with
        | 0 => traverse c0
        | 1 => traverse c1
        | 2 => traverse c2
        | 3 => traverse c3
        | _ => .error .outOfBounds
      if isLeaf then
        forUp (fun i out => do pure (out ++ [← getKey node i])) count 0 []
      else do
        let out ← forUp (fun i out => do
          let s ← sub i
          pure (out ++ s ++ [← getKey node i])) count 0 []
        let s ← sub count
        pure (out ++ s)

/-! ## Deletion -/

/-- The function `getPred(node, i)` after `curr = node->children[i]`: the loop
`while (curr->isLeaf != 1) curr = curr->children[curr->count]` and the final
`return curr->keys[curr->count - 1]`. -/
def getPredLoop : btree → Except Fault Int
  | NULL => .error .nullDeref
  | mk k0 k1 k2 count isLeaf c0 c1 c2 c3 =>
      if isLeaf != true then
        match count with
        | 0 => getPredLoop c0
        | 1 => getPredLoop c1
        | 2 => getPredLoop c2
        | 3 => getPredLoop c3
        | _ => .error .outOfBounds
      else if count = 0 then .error .outOfBounds
      else getKey (mk k0 k1 k2 count isLeaf c0 c1 c2 c3) (count - 1)

/-- The function `getPred(node, i)`. -/
def getPred (node : btree) (i : Nat) : Except Fault Int := do
  let curr ← getChild node i
  getPredLoop curr

/-- The function `getSucc(node, i)` after `curr = node->children[i + 1]`: the loop
`while (curr->isLeaf != 1) curr = curr->children[0]` and the final
`return curr->keys[0]`. -/
def getSuccLoop : btree → Except Fault Int
  | NULL => .error .nullDeref
  | mk k0 _ _ _ isLeaf c0 _ _ _ =>
      if isLeaf != true then getSuccLoop c0 else .ok k0

/-- The function `getSucc(node, i)`. -/
def getSucc (node : btree) (i : Nat) : Except Fault Int := do
  let curr ← getChild node (i + 1)
  getSuccLoop curr

/-- The function `rotateRight(node, i)`; returns the updated `node`. -/
def rotateRight (node : btree) (i : Nat) : Except Fault btree := do
  if i = 0 then throw Fault.outOfBounds
  let left ← getChild node (i - 1)
  let right ← getChild node i
  let lc ← getCount left
  let rc ← getCount right
  let right ← forDown (fun j r => do setKey r (j + 1) (← getKey r j)) rc 0 right
  let right ← setKey right 0 (← getKey node (i - 1))
  if lc = 0 then throw Fault.outOfBounds
  let node ← setKey node (i - 1) (← getKey left (lc - 1))
  let right ←
    if (← getLeaf left) != true then do
      let right ← forDown (fun j r => do setChild r (j + 1) (← getChild r j)) rc 0 right
      setChild right 0 (← getChild left lc)
    else pure right
  let left ← setCount left (lc - 1)
  let right ← setCount right (rc + 1)
  let node ← setChild node (i - 1) left
  setChild node i right

/-- The function `rotateLeft(node, i)`; returns the updated `node`. -/
def rotateLeft (node : btree) (i : Nat) : Except Fault btree := do
  let left ← getChild node i
  let right ← getChild node (i + 1)
  let lc ← getCount left
  let rc ← getCount right
  let left ← setKey left lc (← getKey node i)
  let node ← setKey node i (← getKey right 0)
  let right ← forUp (fun j r => do setKey r (j - 1) (← getKey r j)) (rc - 1) 1 right
  let (left, right) ←
    if (← getLeaf left) != true then do
      let left ← setChild left (lc + 1) (← getChild right 0)
      let right ← forUp (fun j r => do setChild r j (← getChild r (j + 1))) rc 0 right
      pure (left, right)
    else pure (left, right)
  let left ← setCount left (lc + 1)
  let right ← setCount right (rc - 1)
  let node ← setChild node i left
  setChild node (i + 1) right

/-- The function `merge(node, i)`; returns the updated `node` (the record of
the right sibling is released and no longer part of it). -/
def merge (node : btree) (i : Nat) : Except Fault btree := do
  let left ← getChild node i
  let right ← getChild node (i + 1)
  let left ← setKey left (t - 1) (← getKey node i)
  let left ← forUp (fun j l => do setKey l (j + t) (← getKey right j)) (t - 1) 0 left
  let left ←
    if (← getLeaf left) != true then
      forUp (fun j l => do setChild l (j + t) (← getChild right j)) t 0 left
    else pure left
  let count ← getCount node
  let node ← forUp (fun j nd => do
    let nd ← setKey nd (j - 1) (← getKey nd j)
    setChild nd j (← getChild nd (j + 1))) (count - (i + 1)) (i + 1) node
  let left ← setCount left (2 * t - 1)
  let node ← setCount node (count - 1)
  setChild node i left

/-- The function `deleteFromLeaf(node, i)`; returns the updated `node`. -/
def deleteFromLeaf (node : btree) (i : Nat) : Except Fault btree := do
  let count ← getCount node
  let node ←
    forUp (fun j nd => do setKey nd (j - 1) (← getKey nd j)) (count - (i + 1)) (i + 1) node
  setCount node (count - 1)

/-- What a call `delete(node, key)` leaves behind: the record `node` points to,
the value it assigned to the global `root` (if it assigned one), and whether
the branch printing "key doesn't exit!" was taken. -/
structure DelOut where
  node : btree
  root : Option btree
  notFound : Bool
  deriving DecidableEq, Repr

/-- The function `deleteFromNonLeaf(node, i)`; `del` is the function `delete`
that it calls back. -/
def deleteFromNonLeaf (del : btree → Int → Except Fault DelOut) (node : btree) (i : Nat) :
    Except Fault DelOut := do
  if (← getCount (← getChild node i)) ≥ t then
    let key ← getPred node i
    let node ← setKey node i key
    let r ← del (← getChild node i) key
    pure { r with node := (← setChild node i r.node) }
  else if (← getCount (← getChild node (i + 1))) ≥ t then
    let key ← getSucc node i
    let node ← setKey node i key
    let r ← del (← getChild node (i + 1)) key
    pure { r with node := (← setChild node (i + 1) r.node) }
  else
    let key ← getKey node i
    let node ← merge node i
    let r ← del (← getChild node i) key
    pure { r with node := (← setChild node i r.node) }

/-- The function `delete(node, key)`. -/
def delete : Nat → btree → Int → Except Fault DelOut
  | 0, _, _ => .error .outOfFuel
  | fuel + 1, node, key => do
      let count ← getCount node
      let i ← scanUp node key count 0
      let found ← if i < count then do pure (key == (← getKey node i)) else pure false
      let r ←
        if found then
          if (← getLeaf node) then
            pure { node := (← deleteFromLeaf node i), root := none, notFound := false }
          else
            deleteFromNonLeaf (delete fuel) node i
        else if (← getLeaf node) then
          pure { node := node, root := none, notFound := true }
        else do
          let (node, i) ←
            if (← getCount (← getChild node i)) < t then
              let viaLeft ←
                if i != 0 then do pure (decide ((← getCount (← getChild node (i - 1))) ≥ t))
                else pure false
              if viaLeft then
                pure (← rotateRight node i, i)
              else
                let viaRight ←
                  if i != count then do
                    pure (decide ((← getCount (← getChild node (i + 1))) ≥ t))
                  else pure false
                if viaRight then
                  pure (← rotateLeft node i, i)
                else
                  if i == count then
                    if i = 0 then throw Fault.outOfBounds
                    pure (← merge node (i - 1), i - 1)
                  else
                    pure (← merge node i, i)
            else pure (node, i)
          let r ← delete fuel (← getChild node i) key
          pure { r with node := (← setChild node i r.node) }
      if (← getCount r.node) == 0 then
        if (← getLeaf r.node) then
          pure { r with root := some NULL }
        else
          pure { r with root := some (← getChild r.node 0) }
      else pure r

/-- The call `delete(root, key)` of `main` on the global `root`; returns the new
`root` and whether "key doesn't exit!" was printed. -/
def deleteRoot (root : btree) (key : Int) : Except Fault (btree × Bool) := do
  let r ← delete (height root + 1) root key
  match r.root with
  | some p => pure (p, r.notFound)
  | none => pure (r.node, r.notFound)

/-- The loop `for (i = 0; i < size; i++) insert(keys[i])` of `main`. -/
def insertAll (root : btree) : List Int → Except Fault btree
  | [] => .ok root
  | key :: keys => do
      let root ← insert root key
      insertAll root keys

/-- The loop `for (i = 0; i < size; i++) delete(root, rm[i])` of `main`. -/
def deleteAll (root : btree) : List Int → Except Fault btree
  | [] => .ok root
  | key :: keys => do
      let (root, _) ← deleteRoot root key
      deleteAll root keys

/-! ## The B-tree invariants -/

/-- Shape of a subtree with `h` levels: every node holds between `t - 1` and
`2 * t - 1` keys, the nodes of the last level are leaves, every other node is
internal and its children `0 .. count` are subtrees with `h - 1` levels (so an
internal node has `count + 1` children and all leaves are at the same depth).
Slots beyond `count` are not constrained. -/
def wellShaped : Nat → btree → Bool
  | _, NULL => false
  | 0, mk _ _ _ _ _ _ _ _ _ => false
  | 1, mk _ _ _ n l _ _ _ _ => l && decide (t - 1 ≤ n) && decide (n ≤ 2 * t - 1)
  | h + 2, mk _ _ _ n l c0 c1 c2 c3 =>
      !l && decide (t - 1 ≤ n) && decide (n ≤ 2 * t - 1) &&
      wellShaped (h + 1) c0 && wellShaped (h + 1) c1 &&
      (decide (n < 2) || wellShaped (h + 1) c2) && (decide (n < 3) || wellShaped (h + 1) c3)

/-- A valid B-tree: the empty tree (`root == NULL`), or a well shaped tree whose
in-order traversal is strictly increasing. -/
def Valid (root : btree) : Prop :=
  root = NULL ∨
    (wellShaped (height root) root = true ∧
      ∃ l, traverse root = .ok l ∧ l.Sorted (· < ·))

/-- The keys of the live part of a tree in order (what `traverse` prints on a
well shaped tree). -/
def inorder : btree → List Int
  | NULL => []
  | mk k0 k1 k2 n l c0 c1 c2 c3 =>
      if l then [k0, k1, k2].take n
      else
        match n with
        | 0 => inorder c0
        | 1 => inorder c0 ++ k0 :: inorder c1
        | 2 => inorder c0 ++ k0 :: (inorder c1 ++ k1 :: inorder c2)
        | _ => inorder c0 ++ k0 :: (inorder c1 ++ k1 :: (inorder c2 ++ k2 :: inorder c3))

/-- Bounds on a context `pre ++ _ ++ post` around a key `k`. -/
def ctxLe (pre post : List Int) (k : Int) : Prop :=
  (pre = [] ∨ ∃ L a, pre = L ++ [a] ∧ a ≤ k) ∧ (post = [] ∨ ∃ a M, post = a :: M ∧ k ≤ a)

/-- The descent of `delete(node, key)` for a key that is not found: `true` when
every child the recursion goes into already holds at least `t` keys, so that
none of `rotateRight`, `rotateLeft` and `merge` is called on the way. -/
def descendsFilled : btree → Int → Bool
  | NULL, _ => false
  | mk k0 k1 k2 count isLeaf c0 c1 c2 c3, key =>
      match scanUp (mk k0 k1 k2 count isLeaf c0 c1 c2 c3) key count 0 with
      | .error _ => false
      | .ok i =>
          if isLeaf then true
          else
            match i with
            | 0 => (match getCount c0 with | .ok n => decide (t ≤ n) | .error _ => false) &&
                descendsFilled c0 key
            | 1 => (match getCount c1 with | .ok n => decide (t ≤ n) | .error _ => false) &&
                descendsFilled c1 key
            | 2 => (match getCount c2 with | .ok n => decide (t ≤ n) | .error _ => false) &&
                descendsFilled c2 key
            | 3 => (match getCount c3 with | .ok n => decide (t ≤ n) | .error _ => false) &&
                descendsFilled c3 key
            | _ => false

/-- The tree built by inserting 7, 1, 2, 10, 9, 8, 4, 6, 3, 5 into the empty tree. -/
def treeA : btree :=
  mk 7 0 0 1 false
    (mk 2 4 9 2 false
      (mk 1 2 7 1 true NULL NULL NULL NULL)
      (mk 3 4 6 1 true NULL NULL NULL NULL)
      (mk 5 6 0 2 true NULL NULL NULL NULL)
      (mk 10 0 0 1 true NULL NULL NULL NULL))
    (mk 9 0 0 1 false
      (mk 8 0 0 1 true NULL NULL NULL NULL)
      (mk 10 0 0 1 true NULL NULL NULL NULL)
      NULL NULL)
    NULL NULL

/-- The tree built by inserting 7, 4, 8, 5, 10, 11, 6, 2, 9, 1, 3 into the empty tree. -/
def treeB : btree :=
  mk 7 0 0 1 false
    (mk 2 5 10 2 false
      (mk 1 2 4 1 true NULL NULL NULL NULL)
      (mk 3 4 0 2 true NULL NULL NULL NULL)
      (mk 6 0 0 1 true NULL NULL NULL NULL)
      (mk 11 0 0 1 true NULL NULL NULL NULL))
    (mk 10 0 0 1 false
      (mk 8 9 11 2 true NULL NULL NULL NULL)
      (mk 11 0 0 1 true NULL NULL NULL NULL)
      NULL NULL)
    NULL NULL

/-- The tree built by inserting 8, 4, 2, 18, 20, 16, 14, 6, 12, 10 into the empty tree. -/
def treeC : btree :=
  mk 14 0 0 1 false
    (mk 4 8 18 2 false
      (mk 2 4 8 1 true NULL NULL NULL NULL)
      (mk 6 8 12 1 true NULL NULL NULL NULL)
      (mk 10 12 0 2 true NULL NULL NULL NULL)
      (mk 20 0 0 1 true NULL NULL NULL NULL))
    (mk 18 0 0 1 false
      (mk 16 0 0 1 true NULL NULL NULL NULL)
      (mk 20 0 0 1 true NULL NULL NULL NULL)
      NULL NULL)
    NULL NULL

/-- The tree built by inserting 18, 14, 20, 16, 10, 6, 12, 8, 4, 2 into the empty tree. -/
def treeD : btree :=
  mk 14 0 0 1 false
    (mk 6 10 18 2 false
      (mk 2 4 8 2 true NULL NULL NULL NULL)
      (mk 8 0 0 1 true NULL NULL NULL NULL)
      (mk 12 0 0 1 true NULL NULL NULL NULL)
      (mk 20 0 0 1 true NULL NULL NULL NULL))
    (mk 18 0 0 1 false
      (mk 16 0 0 1 true NULL NULL NULL NULL)
      (mk 20 0 0 1 true NULL NULL NULL NULL)
      NULL NULL)
    NULL NULL

/-- The tree built by inserting 1, 2, 3, 4 into the empty tree. -/
def treeE : btree :=
  mk 2 0 0 1 false
    (mk 1 2 3 1 true NULL NULL NULL NULL)
    (mk 3 4 0 2 true NULL NULL NULL NULL)
    NULL NULL

/-- The tree built by inserting 2, 10, 1, 9, 7, 8, 6, 5, 4, 3 into the empty tree. -/
def treeF : btree :=
  mk 7 0 0 1 false
    (mk 2 5 9 2 false
      (mk 1 2 10 1 true NULL NULL NULL NULL)
      (mk 3 4 6 2 true NULL NULL NULL NULL)
      (mk 6 0 0 1 true NULL NULL NULL NULL)
      (mk 10 0 0 1 true NULL NULL NULL NULL))
    (mk 9 0 0 1 false
      (mk 8 0 0 1 true NULL NULL NULL NULL)
      (mk 10 0 0 1 true NULL NULL NULL NULL)
      NULL NULL)
    NULL NULL

/-- The keys `keys[0 .. count - 1]` of a node. -/
def keyList : btree → List Int
  | NULL => []
  | mk k0 k1 k2 n _ _ _ _ _ => [k0, k1, k2].take n

/-- The children `children[0 .. count]` of an internal node (none for a leaf). -/
def childList : btree → List btree
  | NULL => []
  | mk _ _ _ n l c0 c1 c2 c3 => if l then [] else [c0, c1, c2, c3].take (n + 1)

/-- What one activation of `delete(node, key)` does before it either finishes or
calls `delete` again: `done r` when it makes no recursive call (the key was
removed from a leaf, or found missing in a leaf), `call node' j child key'`
when it calls `delete(node'->children[j], key')`, where `node'` is the record
of `node` and `child` the record of `children[j]` at the moment of the call. -/
inductive Step where
  | done (r : DelOut) : Step
  | call (node : btree) (slot : Nat) (child : btree) (key : Int) : Step

/-- The code of `delete(node, key)` (with `deleteFromNonLeaf` inlined) up to its
recursive call. -/
def deleteStep (node : btree) (key : Int) : Except Fault Step := do
  let count ← getCount node
  let i ← scanUp node key count 0
  let found ← if i < count then do pure (key == (← getKey node i)) else pure false
  if found then
    if (← getLeaf node) then
      pure (.done { node := (← deleteFromLeaf node i), root := none, notFound := false })
    else
      if (← getCount (← getChild node i)) ≥ t then
        let key ← getPred node i
        let node ← setKey node i key
        pure (.call node i (← getChild node i) key)
      else if (← getCount (← getChild node (i + 1))) ≥ t then
        let key ← getSucc node i
        let node ← setKey node i key
        pure (.call node (i + 1) (← getChild node (i + 1)) key)
      else
        let key ← getKey node i
        let node ← merge node i
        pure (.call node i (← getChild node i) key)
  else if (← getLeaf node) then
    pure (.done { node := node, root := none, notFound := true })
  else do
    let (node, i) ←
      if (← getCount (← getChild node i)) < t then
        let viaLeft ←
          if i != 0 then do pure (decide ((← getCount (← getChild node (i - 1))) ≥ t))
          else pure false
        if viaLeft then
          pure (← rotateRight node i, i)
        else
          let viaRight ←
            if i != count then do
              pure (decide ((← getCount (← getChild node (i + 1))) ≥ t))
            else pure false
          if viaRight then
            pure (← rotateLeft node i, i)
          else
            if i == count then
              if i = 0 then throw Fault.outOfBounds
              pure (← merge node (i - 1), i - 1)
            else
              pure (← merge node i, i)
      else pure (node, i)
    pure (.call node i (← getChild node i) key)

/-- The end of `delete`: `if (node->count == 0)` the global `root` is replaced. -/
def deleteEnd (r : DelOut) : Except Fault DelOut := do
  if (← getCount r.node) == 0 then
    if (← getLeaf r.node) then
      pure { r with root := some NULL }
    else
      pure { r with root := some (← getChild r.node 0) }
  else pure r

/-- Every recursive call made during `delete(node, key)`, at any depth, is on a
node that holds at least `t` keys at the moment of the call, and the call does
not take the branch that replaces `root`.  A run that faults is checked up to
the fault. -/
def callsFilled : Nat → btree → Int → Bool
  | 0, _, _ => true
  | fuel + 1, node, key =>
      match deleteStep node key with
      | .ok (.call _ _ child key') =>
          (match getCount child with
            | .ok n => decide (t ≤ n)
            | .error _ => false) &&
          callsFilled fuel child key' &&
          (match delete fuel child key' with
            | .ok r => r.root.isNone
            | .error _ => true)
      | _ => true

/-- Every record found in a child slot, in use or not, at any depth holds
between `t - 1` and `2 * t - 1` keys (and so does the node itself). -/
def slotsFilled : btree → Bool
  | NULL => true
  | mk _ _ _ n _ c0 c1 c2 c3 =>
      decide (t - 1 ≤ n) && decide (n ≤ 2 * t - 1) &&
      slotsFilled c0 && slotsFilled c1 && slotsFilled c2 && slotsFilled c3

/-- All four child slots of a record hold trees with filled slots; the record's
own `count` is not constrained (a fresh root holds no key before its child is
split, a root holds none after its last key is deleted or merged away). -/
def kidsFilled : btree → Bool
  | NULL => true
  | mk _ _ _ _ _ c0 c1 c2 c3 => slotsFilled c0 && slotsFilled c1 && slotsFilled c2 && slotsFilled c3

/-- The test `p == NULL`. -/
def btree.isNULL : btree → Bool
  | NULL => true
  | mk _ _ _ _ _ _ _ _ _ => false

/-- Every child slot that holds no child of the tree (all four slots of a leaf,
the slots beyond `count` of an internal node) is `NULL`, as `calloc` left it. -/
def unusedNull : btree → Bool
  | NULL => true
  | mk _ _ _ n l c0 c1 c2 c3 =>
      (if !l then unusedNull c0 else c0.isNULL) &&
      (if !l && decide (1 ≤ n) then unusedNull c1 else c1.isNULL) &&
      (if !l && decide (2 ≤ n) then unusedNull c2 else c2.isNULL) &&
      (if !l && decide (3 ≤ n) then unusedNull c3 else c3.isNULL)

@[simp] theorem t_eq : t = 2 := rfl

/-- On a well shaped tree `traverse` returns the keys of the live part in order. -/
theorem traverse_eq_inorder : ∀ (h : Nat) (T : btree), wellShaped h T = true →
    traverse T = .ok (inorder T) := by
  intro h
  induction h using Nat.strong_induction_on with
  | _ h ih =>
    intro T hT
    match h, T, hT with
    | _, NULL, hT => simp [wellShaped] at hT
    | 0, mk _ _ _ _ _ _ _ _ _, hT => simp [wellShaped] at hT
    | 1, mk k0 k1 k2 n l c0 c1 c2 c3, hT =>
      simp [wellShaped] at hT
      obtain ⟨⟨rfl, h1⟩, h2⟩ := hT
      have : n = 1 ∨ n = 2 ∨ n = 3 := by omega
      rcases this with rfl | rfl | rfl <;> rfl
    | h + 2, mk k0 k1 k2 n l c0 c1 c2 c3, hT =>
      simp [wellShaped] at hT
      obtain ⟨⟨⟨⟨⟨⟨rfl, h1⟩, h2⟩, h3⟩, h4⟩, h5⟩, h6⟩ := hT
      have e0 := ih (h + 1) (by omega) c0 h3
      have e1 := ih (h + 1) (by omega) c1 h4
      have : n = 1 ∨ n = 2 ∨ n = 3 := by omega
      rcases this with rfl | rfl | rfl
      · simp [traverse, forUp, getKey, inorder, e0, e1, bind, Except.bind, pure, Except.pure]
      · have e2 := ih (h + 1) (by omega) c2 (by simpa using h5)
        simp [traverse, forUp, getKey, inorder, e0, e1, e2, bind, Except.bind, pure, Except.pure]
      · have e2 := ih (h + 1) (by omega) c2 (by simpa using h5)
        have e3 := ih (h + 1) (by omega) c3 (by simpa using h6)
        simp [traverse, forUp, getKey, inorder, e0, e1, e2, e3, bind, Except.bind, pure,
          Except.pure]

/-- Every element of a sorted list is at most its last element. -/
theorem sorted_app_last {L : List Int} {a : Int} (h : (L ++ [a]).Sorted (· ≤ ·)) :
    ∀ x ∈ L ++ [a], x ≤ a := by
  intro x hx
  rw [List.Sorted, List.pairwise_append] at h
  rcases List.mem_append.1 hx with hx | hx
  · exact h.2.2 x hx a (by simp)
  · simp at hx; omega

/-- Every element of a sorted list is at least its first element. -/
theorem sorted_cons_first {M : List Int} {a : Int} (h : (a :: M).Sorted (· ≤ ·)) :
    ∀ x ∈ a :: M, a ≤ x := by
  intro x hx
  rw [List.Sorted, List.pairwise_cons] at h
  rcases List.mem_cons.1 hx with hx | hx
  · omega
  · exact h.1 x hx

/-- The keys before a subtree are at most `k` and the keys after it at least `k`
when the separators next to the subtree are. -/
theorem ctx_bounds {pre A post : List Int} {k : Int}
    (hs : (pre ++ A ++ post).Sorted (· ≤ ·)) (hc : ctxLe pre post k) :
    (∀ x ∈ pre, x ≤ k) ∧ (∀ x ∈ post, k ≤ x) := by
  rw [List.Sorted, List.pairwise_append, List.pairwise_append] at hs
  obtain ⟨⟨hpre, hA, hpA⟩, hpost, hall⟩ := hs
  constructor
  · rcases hc.1 with h | ⟨L, a, h, ha⟩
    · subst h; simp
    · subst h; intro x hx; have := sorted_app_last hpre x hx; omega
  · rcases hc.2 with h | ⟨a, M, h, ha⟩
    · subst h; simp
    · subst h; intro x hx; have := sorted_cons_first hpost x hx; omega

/-- Replacing the keys `A` of a subtree by `A` with `k` added keeps the whole
traversal sorted and adds exactly `k` to it. -/
theorem list_replace {pre A A' post : List Int} {k : Int}
    (hs : (pre ++ A ++ post).Sorted (· ≤ ·)) (hc : ctxLe pre post k)
    (hp : A'.Perm (k :: A)) (hs' : A'.Sorted (· ≤ ·)) :
    (pre ++ A' ++ post).Sorted (· ≤ ·) ∧ (pre ++ A' ++ post).Perm (k :: (pre ++ A ++ post)) := by
  obtain ⟨hb1, hb2⟩ := ctx_bounds hs hc
  rw [List.Sorted, List.pairwise_append, List.pairwise_append] at hs
  obtain ⟨⟨hpre, hA, hpA⟩, hpost, hall⟩ := hs
  constructor
  · rw [List.Sorted, List.pairwise_append, List.pairwise_append]
    refine ⟨⟨hpre, hs', ?_⟩, hpost, ?_⟩
    · intro a ha b hb
      rcases List.mem_cons.1 (hp.mem_iff.1 hb) with hb | hb
      · subst hb; exact hb1 a ha
      · exact hpA a ha b hb
    · intro a ha b hb
      rcases List.mem_append.1 ha with ha | ha
      · exact hall a (List.mem_append.2 (Or.inl ha)) b hb
      · rcases List.mem_cons.1 (hp.mem_iff.1 ha) with ha | ha
        · subst ha; exact hb2 b hb
        · exact hall a (List.mem_append.2 (Or.inr ha)) b hb
  · have h1 : (pre ++ A' ++ post).Perm (pre ++ (k :: A) ++ post) :=
      (List.Perm.append_left pre hp).append_right post
    refine h1.trans ?_
    simp only [List.append_assoc, List.cons_append]
    exact List.perm_middle

/-- The traversal of an internal node around its child `i`: the keys before the
child end with `keys[i - 1]`, the keys after it start with `keys[i]`, and storing
another subtree in slot `i` changes only the middle part. -/
theorem node_ctx (k0 k1 k2 : Int) (n : Nat) (c0 c1 c2 c3 : btree) (i : Nat)
    (hn1 : 1 ≤ n) (hn3 : n ≤ 3) (hi : i ≤ n) :
    ∃ pre post c, getChild (mk k0 k1 k2 n false c0 c1 c2 c3) i = .ok c ∧
      inorder (mk k0 k1 k2 n false c0 c1 c2 c3) = pre ++ inorder c ++ post ∧
      ((i = 0 ∧ pre = []) ∨ ∃ L a, 0 < i ∧
        getKey (mk k0 k1 k2 n false c0 c1 c2 c3) (i - 1) = .ok a ∧ pre = L ++ [a]) ∧
      ((i = n ∧ post = []) ∨ ∃ a M, i < n ∧
        getKey (mk k0 k1 k2 n false c0 c1 c2 c3) i = .ok a ∧ post = a :: M) ∧
      (∀ h, wellShaped (h + 2) (mk k0 k1 k2 n false c0 c1 c2 c3) = true →
        wellShaped (h + 1) c = true) ∧
      ∀ c1', ∃ T', setChild (mk k0 k1 k2 n false c0 c1 c2 c3) i c1' = .ok T' ∧
        inorder T' = pre ++ inorder c1' ++ post ∧ getCount T' = .ok n ∧
        ∀ h, wellShaped (h + 2) (mk k0 k1 k2 n false c0 c1 c2 c3) = true →
          wellShaped (h + 1) c1' = true → wellShaped (h + 2) T' = true := by
  have hn : n = 1 ∨ n = 2 ∨ n = 3 := by omega
  rcases hn with rfl | rfl | rfl
  · have : i = 0 ∨ i = 1 := by omega
    rcases this with rfl | rfl
    · refine ⟨[], k0 :: inorder c1, c0, rfl, by simp [inorder], Or.inl ⟨rfl, rfl⟩,
        Or.inr ⟨k0, _, by omega, rfl, rfl⟩, ?_, fun c' => ⟨_, rfl, by simp [inorder], rfl, ?_⟩⟩
      · intro h; simp [wellShaped]; tauto
      · intro h; simp [wellShaped]; tauto
    · refine ⟨inorder c0 ++ [k0], [], c1, rfl, by simp [inorder], Or.inr ⟨_, k0, by omega, rfl, rfl⟩,
        Or.inl ⟨rfl, rfl⟩, ?_, fun c' => ⟨_, rfl, by simp [inorder], rfl, ?_⟩⟩
      · intro h; simp [wellShaped]
      · intro h; simp [wellShaped]; tauto
  · have : i = 0 ∨ i = 1 ∨ i = 2 := by omega
    rcases this with rfl | rfl | rfl
    · refine ⟨[], k0 :: (inorder c1 ++ k1 :: inorder c2), c0, rfl, by simp [inorder],
        Or.inl ⟨rfl, rfl⟩, Or.inr ⟨k0, _, by omega, rfl, rfl⟩, ?_,
        fun c' => ⟨_, rfl, by simp [inorder], rfl, ?_⟩⟩
      · intro h; simp [wellShaped]; tauto
      · intro h; simp [wellShaped]; tauto
    · refine ⟨inorder c0 ++ [k0], k1 :: inorder c2, c1, rfl, by simp [inorder],
        Or.inr ⟨_, k0, by omega, rfl, rfl⟩, Or.inr ⟨k1, _, by omega, rfl, rfl⟩, ?_,
        fun c' => ⟨_, rfl, by simp [inorder], rfl, ?_⟩⟩
      · intro h; simp [wellShaped]; tauto
      · intro h; simp [wellShaped]; tauto
    · refine ⟨(inorder c0 ++ k0 :: inorder c1) ++ [k1], [], c2, rfl, by simp [inorder],
        Or.inr ⟨_, k1, by omega, rfl, rfl⟩, Or.inl ⟨rfl, rfl⟩, ?_,
        fun c' => ⟨_, rfl, by simp [inorder], rfl, ?_⟩⟩
      · intro h; simp [wellShaped]
      · intro h; simp [wellShaped]; tauto
  · have : i = 0 ∨ i = 1 ∨ i = 2 ∨ i = 3 := by omega
    rcases this with rfl | rfl | rfl | rfl
    · refine ⟨[], k0 :: (inorder c1 ++ k1 :: (inorder c2 ++ k2 :: inorder c3)), c0, rfl,
        by simp [inorder], Or.inl ⟨rfl, rfl⟩, Or.inr ⟨k0, _, by omega, rfl, rfl⟩, ?_,
        fun c' => ⟨_, rfl, by simp [inorder], rfl, ?_⟩⟩
      · intro h; simp [wellShaped]; tauto
      · intro h; simp [wellShaped]; tauto
    · refine ⟨inorder c0 ++ [k0], k1 :: (inorder c2 ++ k2 :: inorder c3), c1, rfl,
        by simp [inorder], Or.inr ⟨_, k0, by omega, rfl, rfl⟩,
        Or.inr ⟨k1, _, by omega, rfl, rfl⟩, ?_,
        fun c' => ⟨_, rfl, by simp [inorder], rfl, ?_⟩⟩
      · intro h; simp [wellShaped]; tauto
      · intro h; simp [wellShaped]; tauto
    · refine ⟨(inorder c0 ++ k0 :: inorder c1) ++ [k1], k2 :: inorder c3, c2, rfl,
        by simp [inorder], Or.inr ⟨_, k1, by omega, rfl, rfl⟩,
        Or.inr ⟨k2, _, by omega, rfl, rfl⟩, ?_,
        fun c' => ⟨_, rfl, by simp [inorder], rfl, ?_⟩⟩
      · intro h; simp [wellShaped]; tauto
      · intro h; simp [wellShaped]; tauto
    · refine ⟨(inorder c0 ++ k0 :: (inorder c1 ++ k1 :: inorder c2)) ++ [k2], [], c3, rfl,
        by simp [inorder], Or.inr ⟨_, k2, by omega, rfl, rfl⟩, Or.inl ⟨rfl, rfl⟩, ?_,
        fun c' => ⟨_, rfl, by simp [inorder], rfl, ?_⟩⟩
      · intro h; simp [wellShaped]
      · intro h; simp [wellShaped]; tauto

/-- The function `splitChild` on a node with at most two keys whose child `i` is
full: the result is well shaped, has the same traversal and one more key, the
median sits at `keys[i]` between two children with one key each, and the other
keys keep their order. -/
theorem splitChild_spec (h : Nat) (k0 k1 k2 : Int) (n : Nat) (c0 c1 c2 c3 : btree) (i : Nat)
    (hn : n ≤ 2) (hi : i ≤ n) (c : btree)
    (hc : getChild (mk k0 k1 k2 n false c0 c1 c2 c3) i = .ok c) (hfull : getCount c = .ok 3)
    (hs0 : wellShaped (h + 1) c0 = true) (hs1 : 1 ≤ n → wellShaped (h + 1) c1 = true)
    (hs2 : 2 ≤ n → wellShaped (h + 1) c2 = true) :
    ∃ T2, splitChild (mk k0 k1 k2 n false c0 c1 c2 c3) i = .ok T2 ∧
      wellShaped (h + 2) T2 = true ∧
      inorder T2 = inorder (mk k0 k1 k2 n false c0 c1 c2 c3) ∧
      getCount T2 = .ok (n + 1) ∧ getLeaf T2 = .ok false ∧
      (∃ m lh rh, getKey T2 i = .ok m ∧ getChild T2 i = .ok lh ∧
        getChild T2 (i + 1) = .ok rh ∧ getCount lh = .ok 1 ∧ getCount rh = .ok 1) ∧
      (i = 0 ∨ getKey T2 (i - 1) = getKey (mk k0 k1 k2 n false c0 c1 c2 c3) (i - 1)) ∧
      (i = n ∨ getKey T2 (i + 1) = getKey (mk k0 k1 k2 n false c0 c1 c2 c3) i) := by
  match c, hfull with
  | mk a b d cnt l x0 x1 x2 x3, hfull =>
    simp [getCount] at hfull
    subst hfull
    have hn' : n = 0 ∨ n = 1 ∨ n = 2 := by omega
    rcases h with _ | h
    · rcases hn' with rfl | rfl | rfl <;> interval_cases i <;> simp [getChild] at hc <;>
        subst hc <;> simp [wellShaped] at hs0 hs1 hs2 <;>
        (try obtain rfl := hs0) <;> (try obtain rfl := hs1) <;> (try obtain rfl := hs2) <;>
        refine ⟨_, rfl, ?_, ?_, rfl, rfl, ⟨_, _, _, rfl, rfl, rfl, rfl, rfl⟩, ?_, ?_⟩ <;>
        simp_all [wellShaped, inorder, getKey]
    · rcases hn' with rfl | rfl | rfl <;> interval_cases i <;> simp [getChild] at hc <;>
        subst hc <;> simp [wellShaped] at hs0 hs1 hs2 <;>
        (try obtain ⟨⟨⟨⟨rfl, _⟩, _⟩, _⟩, _⟩ := hs0) <;>
        (try obtain ⟨⟨⟨⟨rfl, _⟩, _⟩, _⟩, _⟩ := hs1) <;>
        (try obtain ⟨⟨⟨⟨rfl, _⟩, _⟩, _⟩, _⟩ := hs2) <;>
        refine ⟨_, rfl, ?_, ?_, rfl, rfl, ⟨_, _, _, rfl, rfl, rfl, rfl, rfl⟩, ?_, ?_⟩ <;>
        simp_all [wellShaped, inorder, getKey]

/-- The downward scan of `insertNonfull` stops at the first position whose left
neighbour is at most `key` and whose right neighbour is greater. -/
theorem scanDown_spec (k0 k1 k2 : Int) (n : Nat) (l : Bool) (c0 c1 c2 c3 : btree) (key : Int)
    (hn : n ≤ 3) :
    ∃ i, scanDown (mk k0 k1 k2 n l c0 c1 c2 c3) key n = .ok i ∧ i ≤ n ∧
      (i = 0 ∨ ∃ a, getKey (mk k0 k1 k2 n l c0 c1 c2 c3) (i - 1) = .ok a ∧ a ≤ key) ∧
      (i = n ∨ ∃ a, getKey (mk k0 k1 k2 n l c0 c1 c2 c3) i = .ok a ∧ key < a) := by
  have hn' : n = 0 ∨ n = 1 ∨ n = 2 ∨ n = 3 := by omega
  rcases hn' with rfl | rfl | rfl | rfl
  · exact ⟨0, rfl, by omega, Or.inl rfl, Or.inl rfl⟩
  · by_cases h0 : key < k0
    · exact ⟨0, by simp [scanDown, getKey, h0, bind, Except.bind], by omega, Or.inl rfl,
        Or.inr ⟨k0, rfl, h0⟩⟩
    · exact ⟨1, by simp [scanDown, getKey, h0, bind, Except.bind], by omega,
        Or.inr ⟨k0, rfl, by omega⟩, Or.inl rfl⟩
  · by_cases h1 : key < k1
    · by_cases h0 : key < k0
      · exact ⟨0, by simp [scanDown, getKey, h0, h1, bind, Except.bind], by omega, Or.inl rfl,
          Or.inr ⟨k0, rfl, h0⟩⟩
      · exact ⟨1, by simp [scanDown, getKey, h0, h1, bind, Except.bind], by omega,
          Or.inr ⟨k0, rfl, by omega⟩, Or.inr ⟨k1, rfl, h1⟩⟩
    · exact ⟨2, by simp [scanDown, getKey, h1, bind, Except.bind], by omega,
        Or.inr ⟨k1, rfl, by omega⟩, Or.inl rfl⟩
  · by_cases h2 : key < k2
    · by_cases h1 : key < k1
      · by_cases h0 : key < k0
        · exact ⟨0, by simp [scanDown, getKey, h0, h1, h2, bind, Except.bind], by omega,
            Or.inl rfl, Or.inr ⟨k0, rfl, h0⟩⟩
        · exact ⟨1, by simp [scanDown, getKey, h0, h1, h2, bind, Except.bind], by omega,
            Or.inr ⟨k0, rfl, by omega⟩, Or.inr ⟨k1, rfl, h1⟩⟩
      · exact ⟨2, by simp [scanDown, getKey, h1, h2, bind, Except.bind], by omega,
          Or.inr ⟨k1, rfl, by omega⟩, Or.inr ⟨k2, rfl, h2⟩⟩
    · exact ⟨3, by simp [scanDown, getKey, h2, bind, Except.bind], by omega,
        Or.inr ⟨k2, rfl, by omega⟩, Or.inl rfl⟩

/-- The function `insertNonfull` on a leaf with at most two keys. -/
theorem insertNonfull_leaf (fuel : Nat) (k0 k1 k2 : Int) (n : Nat) (c0 c1 c2 c3 : btree)
    (key : Int) (hn : n ≤ 2) (hs : (inorder (mk k0 k1 k2 n true c0 c1 c2 c3)).Sorted (· ≤ ·)) :
    ∃ T', insertNonfull (fuel + 1) (mk k0 k1 k2 n true c0 c1 c2 c3) key = .ok T' ∧
      wellShaped 1 T' = true ∧
      (inorder T').Perm (key :: inorder (mk k0 k1 k2 n true c0 c1 c2 c3)) ∧
      (inorder T').Sorted (· ≤ ·) := by
  have hn' : n = 0 ∨ n = 1 ∨ n = 2 := by omega
  rcases hn' with rfl | rfl | rfl
  · refine ⟨_, rfl, rfl, ?_, ?_⟩ <;> simp [inorder]
  · simp [inorder] at hs
    by_cases h0 : key < k0
    · refine ⟨mk key k0 k2 2 true c0 c1 c2 c3,
        by simp [insertNonfull, shiftDown, getKey, setKey, setCount, getCount, getLeaf, h0, bind,
          Except.bind], rfl, ?_, ?_⟩
      · simp [inorder]
      · simp [inorder]; omega
    · refine ⟨mk k0 key k2 2 true c0 c1 c2 c3,
        by simp [insertNonfull, shiftDown, getKey, setKey, setCount, getCount, getLeaf, h0, bind,
          Except.bind], rfl, ?_, ?_⟩
      · simp [inorder]; exact List.Perm.swap _ _ _
      · simp [inorder]; omega
  · simp [inorder] at hs
    by_cases h1 : key < k1
    · by_cases h0 : key < k0
      · refine ⟨mk key k0 k1 3 true c0 c1 c2 c3,
          by simp [insertNonfull, shiftDown, getKey, setKey, setCount, getCount, getLeaf, h0, h1,
            bind, Except.bind], rfl, ?_, ?_⟩
        · simp [inorder]
        · simp [inorder]; omega
      · refine ⟨mk k0 key k1 3 true c0 c1 c2 c3,
          by simp [insertNonfull, shiftDown, getKey, setKey, setCount, getCount, getLeaf, h0, h1,
            bind, Except.bind], rfl, ?_, ?_⟩
        · simp only [inorder, List.take]
          rw [List.perm_iff_count]; intro x; simp [List.count_cons]; omega
        · simp [inorder]; omega
    · refine ⟨mk k0 k1 key 3 true c0 c1 c2 c3,
        by simp [insertNonfull, shiftDown, getKey, setKey, setCount, getCount, getLeaf, h1,
          bind, Except.bind], rfl, ?_, ?_⟩
      · simp only [inorder, List.take]
        rw [List.perm_iff_count]; intro x; simp [List.count_cons]; omega
      · simp [inorder]; omega

/-- A well shaped tree is a record with one to three keys, a leaf exactly on the
last level. -/
theorem wellShaped_count {h : Nat} {T : btree} (hT : wellShaped h T = true) :
    ∃ k0 k1 k2 n l c0 c1 c2 c3, T = mk k0 k1 k2 n l c0 c1 c2 c3 ∧ 1 ≤ n ∧ n ≤ 3 ∧
      (l = true ↔ h = 1) := by
  match h, T, hT with
  | _, NULL, hT => simp [wellShaped] at hT
  | 0, mk _ _ _ _ _ _ _ _ _, hT => simp [wellShaped] at hT
  | 1, mk k0 k1 k2 n l c0 c1 c2 c3, hT =>
    simp [wellShaped] at hT
    exact ⟨k0, k1, k2, n, l, c0, c1, c2, c3, rfl, by omega, by omega, by simp [hT.1.1]⟩
  | h + 2, mk k0 k1 k2 n l c0 c1 c2 c3, hT =>
    simp [wellShaped] at hT
    exact ⟨k0, k1, k2, n, l, c0, c1, c2, c3, rfl, by omega, by omega, by simp [hT.1.1.1.1.1.1]⟩

/-- Reading `count` of a record. -/
theorem getCount_mk (k0 k1 k2 : Int) (n : Nat) (l : Bool) (c0 c1 c2 c3 : btree) :
    getCount (mk k0 k1 k2 n l c0 c1 c2 c3) = .ok n := rfl

/-- Reading `isLeaf` of a record. -/
theorem getLeaf_mk (k0 k1 k2 : Int) (n : Nat) (l : Bool) (c0 c1 c2 c3 : btree) :
    getLeaf (mk k0 k1 k2 n l c0 c1 c2 c3) = .ok l := rfl

/-- The middle part of a sorted list is sorted. -/
theorem sorted_mid {pre A post : List Int} (hs : (pre ++ A ++ post).Sorted (· ≤ ·)) :
    A.Sorted (· ≤ ·) := by
  rw [List.Sorted, List.pairwise_append, List.pairwise_append] at hs
  exact hs.1.2.1

/-- The function `insertNonfull` on a well shaped, non-full node whose keys are in
non-decreasing order: with fuel for every level it returns a well shaped tree
of the same height whose traversal is sorted and is the old one plus `key`. -/
theorem insertNonfull_spec : ∀ (h : Nat) (T : btree) (key : Int) (fuel : Nat),
    wellShaped h T = true → getCount T ≠ .ok 3 → h ≤ fuel → (inorder T).Sorted (· ≤ ·) →
    ∃ T', insertNonfull fuel T key = .ok T' ∧ wellShaped h T' = true ∧
      (inorder T').Perm (key :: inorder T) ∧ (inorder T').Sorted (· ≤ ·) := by
  intro h
  induction h using Nat.strong_induction_on with
  | _ h ih =>
    intro T key fuel hT hnf hfuel hs
    obtain ⟨k0, k1, k2, n, l, c0, c1, c2, c3, rfl, hn1, hn3, hl⟩ := wellShaped_count hT
    simp [getCount] at hnf
    rcases h with _ | _ | h
    · simp [wellShaped] at hT
    · obtain ⟨fuel, rfl⟩ : ∃ f, fuel = f + 1 := ⟨fuel - 1, by omega⟩
      obtain rfl : l = true := by simpa using hl
      exact insertNonfull_leaf fuel k0 k1 k2 n c0 c1 c2 c3 key (by omega) hs
    · obtain ⟨fuel, rfl⟩ : ∃ f, fuel = f + 1 := ⟨fuel - 1, by omega⟩
      obtain rfl : l = false := by simpa using hl
      have hT' := hT
      simp [wellShaped] at hT'
      obtain ⟨⟨⟨⟨⟨_, h2⟩, h3⟩, h4⟩, h5⟩, h6⟩ := hT'
      have hn2 : n ≤ 2 := by omega
      obtain ⟨i, hscan, hi, hlo, hhi⟩ :=
        scanDown_spec k0 k1 k2 n false c0 c1 c2 c3 key hn3
      obtain ⟨pre, post, c, hc, hio, hpre, hpost, hcs, hset⟩ :=
        node_ctx k0 k1 k2 n c0 c1 c2 c3 i hn1 hn3 hi
      have hcsh := hcs h hT
      have h5' : 2 ≤ n → wellShaped (h + 1) c2 = true := fun hh => by
        rcases h5 with h5 | h5
        · omega
        · exact h5
      by_cases hfull : getCount c = .ok 3
      · obtain ⟨T2, hsplit, hsh2, hio2, hcnt2, hleaf2, ⟨m, lh, rh, hm, hlh, hrh, hlc, hrc⟩,
          hk1, hk2⟩ := splitChild_spec h k0 k1 k2 n c0 c1 c2 c3 i hn2 hi c hc hfull h3
            (fun _ => h4) h5'
        obtain ⟨q0, q1, q2, n2, l2, d0, d1, d2, d3, rfl, _, _, _⟩ := wellShaped_count hsh2
        simp [getCount, getLeaf] at hcnt2 hleaf2
        subst hcnt2 hleaf2
        rw [← hio2] at hs
        by_cases hgt : m < key
        · obtain ⟨pre2, post2, cc, hcc, hioc, hpre2, hpost2, hcs2, hset2⟩ :=
            node_ctx q0 q1 q2 (n + 1) d0 d1 d2 d3 (i + 1) (by omega) (by omega) (by omega)
          obtain rfl : rh = cc := Except.ok.inj (hrh.symm.trans hcc)
          rw [hioc] at hs
          obtain ⟨c', hc', hsh', hperm', hsort'⟩ := ih (h + 1) (by omega) rh key fuel
            (hcs2 h hsh2) (by rw [hrc]; simp) (by omega) (sorted_mid hs)
          obtain ⟨T', hT', hioT', hcntT', hshT'⟩ := hset2 c'
          have hctx : ctxLe pre2 post2 key := by
            constructor
            · rcases hpre2 with ⟨h0, _⟩ | ⟨L, a, _, ha, hp⟩
              · omega
              · simp only [Nat.add_sub_cancel] at ha
                obtain rfl : m = a := Except.ok.inj (hm.symm.trans ha)
                exact Or.inr ⟨L, m, hp, by omega⟩
            · rcases hpost2 with ⟨_, hp⟩ | ⟨a, M, hlt, ha, hp⟩
              · exact Or.inl hp
              · rcases hk2 with hk2 | hk2
                · omega
                · rcases hhi with hhi | ⟨a', ha', hlt'⟩
                  · omega
                  · obtain rfl : a' = a := Except.ok.inj (ha'.symm.trans (hk2.symm.trans ha))
                    exact Or.inr ⟨a', M, hp, by omega⟩
          obtain ⟨hsortT, hpermT⟩ := list_replace hs hctx hperm' hsort'
          refine ⟨T', ?_, hshT' h hsh2 hsh', ?_, ?_⟩
          · simp [insertNonfull, getCount_mk, getLeaf_mk, hscan, hc, hfull, hsplit, hm, hgt, hrh,
              hc', hT', bind, Except.bind, pure, Except.pure]
          · rw [hioT', ← hio2, hioc]; exact hpermT
          · rw [hioT']; exact hsortT
        · obtain ⟨pre2, post2, cc, hcc, hioc, hpre2, hpost2, hcs2, hset2⟩ :=
            node_ctx q0 q1 q2 (n + 1) d0 d1 d2 d3 i (by omega) (by omega) (by omega)
          obtain rfl : lh = cc := Except.ok.inj (hlh.symm.trans hcc)
          rw [hioc] at hs
          obtain ⟨c', hc', hsh', hperm', hsort'⟩ := ih (h + 1) (by omega) lh key fuel
            (hcs2 h hsh2) (by rw [hlc]; simp) (by omega) (sorted_mid hs)
          obtain ⟨T', hT', hioT', hcntT', hshT'⟩ := hset2 c'
          have hctx : ctxLe pre2 post2 key := by
            constructor
            · rcases hpre2 with ⟨_, hp⟩ | ⟨L, a, hpos, ha, hp⟩
              · exact Or.inl hp
              · rcases hk1 with hk1 | hk1
                · omega
                · rcases hlo with hlo | ⟨a', ha', hle'⟩
                  · omega
                  · obtain rfl : a' = a := Except.ok.inj (ha'.symm.trans (hk1.symm.trans ha))
                    exact Or.inr ⟨L, a', hp, hle'⟩
            · rcases hpost2 with ⟨h0, _⟩ | ⟨a, M, hlt, ha, hp⟩
              · omega
              · obtain rfl : m = a := Except.ok.inj (hm.symm.trans ha)
                exact Or.inr ⟨m, M, hp, by omega⟩
          obtain ⟨hsortT, hpermT⟩ := list_replace hs hctx hperm' hsort'
          refine ⟨T', ?_, hshT' h hsh2 hsh', ?_, ?_⟩
          · simp [insertNonfull, getCount_mk, getLeaf_mk, hscan, hc, hfull, hsplit, hm, hgt, hlh,
              hc', hT', bind, Except.bind, pure, Except.pure]
          · rw [hioT', ← hio2, hioc]; exact hpermT
          · rw [hioT']; exact hsortT
      · rw [hio] at hs
        obtain ⟨c', hc', hsh', hperm', hsort'⟩ := ih (h + 1) (by omega) c key fuel
          hcsh hfull (by omega) (sorted_mid hs)
        obtain ⟨T', hT', hioT', hcntT', hshT'⟩ := hset c'
        have hctx : ctxLe pre post key := by
          constructor
          · rcases hpre with ⟨_, hp⟩ | ⟨L, a, hpos, ha, hp⟩
            · exact Or.inl hp
            · rcases hlo with hlo | ⟨a', ha', hle'⟩
              · omega
              · obtain rfl : a' = a := Except.ok.inj (ha'.symm.trans ha)
                exact Or.inr ⟨L, a', hp, hle'⟩
          · rcases hpost with ⟨_, hp⟩ | ⟨a, M, hlt, ha, hp⟩
            · exact Or.inl hp
            · rcases hhi with hhi | ⟨a', ha', hlt'⟩
              · omega
              · obtain rfl : a' = a := Except.ok.inj (ha'.symm.trans ha)
                exact Or.inr ⟨a', M, hp, by omega⟩
        obtain ⟨hsortT, hpermT⟩ := list_replace hs hctx hperm' hsort'
        obtain ⟨_, _, _, cn, _, _, _, _, _, rfl, _, _, _⟩ := wellShaped_count hcsh
        simp [getCount] at hfull
        refine ⟨T', ?_, hshT' h hT hsh', ?_, ?_⟩
        · simp [insertNonfull, getCount_mk, getLeaf_mk, hscan, hc, hfull, hc', hT', bind, Except.bind,
            pure, Except.pure]
        · rw [hioT', hio]; exact hpermT
        · rw [hioT']; exact hsortT

/-- A tree that is well shaped with `h` levels has height `h`. -/
theorem wellShaped_height : ∀ (h : Nat) (T : btree), wellShaped h T = true → height T = h := by
  intro h
  induction h using Nat.strong_induction_on with
  | _ h ih =>
    intro T hT
    obtain ⟨k0, k1, k2, n, l, c0, c1, c2, c3, rfl, hn1, hn3, hl⟩ := wellShaped_count hT
    rcases h with _ | _ | h
    · simp [wellShaped] at hT
    · obtain rfl : l = true := by simpa using hl
      rfl
    · obtain rfl : l = false := by simpa using hl
      simp [wellShaped] at hT
      have := ih (h + 1) (by omega) c0 hT.1.1.1.2
      simp [height, this]

/-- What `insert` achieves on a tree that is empty or well shaped with sorted keys. -/
theorem insert_spec (T : btree) (key : Int)
    (hv : T = NULL ∨ (wellShaped (height T) T = true ∧ (inorder T).Sorted (· ≤ ·))) :
    ∃ T', insert T key = .ok T' ∧ wellShaped (height T') T' = true ∧
      (inorder T').Perm (key :: inorder T) ∧ (inorder T').Sorted (· ≤ ·) ∧
      (getCount T = .ok 3 → height T' = height T + 1) ∧
      (getCount T ≠ .ok 3 → height T' = max (height T) 1) := by
  rcases hv with rfl | ⟨hsh, hs⟩
  · obtain ⟨T', h1, h2, h3, h4⟩ :=
      insertNonfull_leaf 0 0 0 0 0 NULL NULL NULL NULL key (by omega) (by simp [inorder])
    refine ⟨T', ?_, ?_, ?_, h4, ?_, ?_⟩
    · simpa [insert, newNode, getCount_mk, height, bind, Except.bind, pure, Except.pure] using h1
    · rw [wellShaped_height 1 T' h2]; exact h2
    · simpa [inorder] using h3
    · simp [getCount]
    · rw [wellShaped_height 1 T' h2]; simp [height]
  · obtain ⟨k0, k1, k2, n, l, c0, c1, c2, c3, rfl, hn1, hn3, hl⟩ := wellShaped_count hsh
    obtain ⟨h, hh⟩ : ∃ h, height (mk k0 k1 k2 n l c0 c1 c2 c3) = h + 1 := by
      cases l <;> simp [height]
    rw [hh] at hsh
    by_cases hfull : n = 3
    · subst hfull
      obtain ⟨T2, hsplit, hsh2, hio2, hcnt2, -, -, -, -⟩ :=
        splitChild_spec h 0 0 0 0 (mk k0 k1 k2 3 l c0 c1 c2 c3) NULL NULL NULL 0 (by omega)
          (by omega) (mk k0 k1 k2 3 l c0 c1 c2 c3) rfl rfl hsh (by omega) (by omega)
      have hs2 : (inorder T2).Sorted (· ≤ ·) := by rw [hio2]; simpa [inorder] using hs
      obtain ⟨T', h1, h2, h3, h4⟩ := insertNonfull_spec (h + 2) T2 key (h + 2) hsh2
        (by rw [hcnt2]; simp) (by omega) hs2
      have hh2 := wellShaped_height _ _ hsh2
      refine ⟨T', ?_, ?_, ?_, h4, ?_, ?_⟩
      · simp [insert, newNode, getCount_mk, setChild, hsplit, hh2, h1, bind, Except.bind, pure,
          Except.pure]
      · rw [wellShaped_height _ _ h2]; exact h2
      · rw [hio2] at h3; simpa [inorder] using h3
      · intro _; rw [wellShaped_height _ _ h2, hh]
      · simp [getCount]
    · obtain ⟨T', h1, h2, h3, h4⟩ := insertNonfull_spec (h + 1) _ key (h + 1) hsh
        (by simp [getCount, hfull]) (by omega) hs
      refine ⟨T', ?_, ?_, h3, h4, ?_, ?_⟩
      · simp [insert, getCount_mk, hfull, hh, h1, bind, Except.bind, pure, Except.pure]
      · rw [wellShaped_height _ _ h2]; exact h2
      · simp [getCount, hfull]
      · intro _; rw [wellShaped_height _ _ h2, hh]; simp

/-- The upward scan of `search` and `delete` stops at the first position whose
key is at least `key`. -/
theorem scanUp_spec (k0 k1 k2 : Int) (n : Nat) (l : Bool) (c0 c1 c2 c3 : btree) (key : Int)
    (hn : n ≤ 3) :
    ∃ i, scanUp (mk k0 k1 k2 n l c0 c1 c2 c3) key n 0 = .ok i ∧ i ≤ n ∧
      (i = 0 ∨ ∃ a, getKey (mk k0 k1 k2 n l c0 c1 c2 c3) (i - 1) = .ok a ∧ a < key) ∧
      (i = n ∨ (i < n ∧ ∃ a, getKey (mk k0 k1 k2 n l c0 c1 c2 c3) i = .ok a ∧ key ≤ a)) := by
  have hn' : n = 0 ∨ n = 1 ∨ n = 2 ∨ n = 3 := by omega
  rcases hn' with rfl | rfl | rfl | rfl
  · exact ⟨0, rfl, by omega, Or.inl rfl, Or.inl rfl⟩
  · by_cases h0 : k0 < key
    · exact ⟨1, by simp [scanUp, getKey, h0, bind, Except.bind], by omega,
        Or.inr ⟨k0, rfl, h0⟩, Or.inl rfl⟩
    · exact ⟨0, by simp [scanUp, getKey, h0, bind, Except.bind], by omega, Or.inl rfl,
        Or.inr ⟨by omega, k0, rfl, by omega⟩⟩
  · by_cases h0 : k0 < key
    · by_cases h1 : k1 < key
      · exact ⟨2, by simp [scanUp, getKey, h0, h1, bind, Except.bind], by omega,
          Or.inr ⟨k1, rfl, h1⟩, Or.inl rfl⟩
      · exact ⟨1, by simp [scanUp, getKey, h0, h1, bind, Except.bind], by omega,
          Or.inr ⟨k0, rfl, h0⟩, Or.inr ⟨by omega, k1, rfl, by omega⟩⟩
    · exact ⟨0, by simp [scanUp, getKey, h0, bind, Except.bind], by omega, Or.inl rfl,
        Or.inr ⟨by omega, k0, rfl, by omega⟩⟩
  · by_cases h0 : k0 < key
    · by_cases h1 : k1 < key
      · by_cases h2 : k2 < key
        · exact ⟨3, by simp [scanUp, getKey, h0, h1, h2, bind, Except.bind], by omega,
            Or.inr ⟨k2, rfl, h2⟩, Or.inl rfl⟩
        · exact ⟨2, by simp [scanUp, getKey, h0, h1, h2, bind, Except.bind], by omega,
            Or.inr ⟨k1, rfl, h1⟩, Or.inr ⟨by omega, k2, rfl, by omega⟩⟩
      · exact ⟨1, by simp [scanUp, getKey, h0, h1, bind, Except.bind], by omega,
          Or.inr ⟨k0, rfl, h0⟩, Or.inr ⟨by omega, k1, rfl, by omega⟩⟩
    · exact ⟨0, by simp [scanUp, getKey, h0, bind, Except.bind], by omega, Or.inl rfl,
        Or.inr ⟨by omega, k0, rfl, by omega⟩⟩

/-- The recursive call of `search` goes to the child read by `getChild`. -/
theorem search_child (k0 k1 k2 : Int) (n : Nat) (c0 c1 c2 c3 : btree) (key : Int) (i : Nat)
    (c : btree) : getChild (mk k0 k1 k2 n false c0 c1 c2 c3) i = .ok c →
    (match i with
      | 0 => search c0 key
      | 1 => search c1 key
      | 2 => search c2 key
      | 3 => search c3 key
      | _ => .error .outOfBounds) = search c key := by
  intro hc
  match i, hc with
  | 0, hc => cases hc; rfl
  | 1, hc => cases hc; rfl
  | 2, hc => cases hc; rfl
  | 3, hc => cases hc; rfl
  | _ + 4, hc => simp [getChild] at hc

/-- The function `search` on a leaf with sorted keys. -/
theorem search_leaf (k0 k1 k2 : Int) (n : Nat) (c0 c1 c2 c3 : btree) (key : Int)
    (hn1 : 1 ≤ n) (hn3 : n ≤ 3)
    (hs : (inorder (mk k0 k1 k2 n true c0 c1 c2 c3)).Sorted (· ≤ ·)) :
    search (mk k0 k1 k2 n true c0 c1 c2 c3) key =
      .ok (decide (key ∈ inorder (mk k0 k1 k2 n true c0 c1 c2 c3))) := by
  have hn' : n = 1 ∨ n = 2 ∨ n = 3 := by omega
  rcases hn' with rfl | rfl | rfl
  · simp [inorder] at hs ⊢
    by_cases h0 : k0 < key
    · simp [search, scanUp, getKey, bind, Except.bind, pure, Except.pure, h0]; omega
    · rcases eq_or_ne key k0 with rfl | e
      · simp [search, scanUp, getKey, bind, Except.bind, pure, Except.pure]
      · have e' : ¬ k0 < key := h0
        simp [search, scanUp, getKey, bind, Except.bind, pure, Except.pure, e, h0]
        try omega
  · simp [inorder] at hs ⊢
    by_cases h0 : k0 < key
    · by_cases h1 : k1 < key
      · simp [search, scanUp, getKey, bind, Except.bind, pure, Except.pure, h0, h1]; omega
      · rcases eq_or_ne key k1 with rfl | e
        · simp [search, scanUp, getKey, bind, Except.bind, pure, Except.pure, h0]
        · have e' : ¬ k1 < key := h1
          simp [search, scanUp, getKey, bind, Except.bind, pure, Except.pure, e, h0, h1]
          try omega
    · rcases eq_or_ne key k0 with rfl | e
      · simp [search, scanUp, getKey, bind, Except.bind, pure, Except.pure]
      · have e' : ¬ k0 < key := h0
        simp [search, scanUp, getKey, bind, Except.bind, pure, Except.pure, e, h0]
        try omega
  · simp [inorder] at hs ⊢
    by_cases h0 : k0 < key
    · by_cases h1 : k1 < key
      · by_cases h2 : k2 < key
        · simp [search, scanUp, getKey, bind, Except.bind, pure, Except.pure, h0, h1, h2]; omega
        · rcases eq_or_ne key k2 with rfl | e
          · simp [search, scanUp, getKey, bind, Except.bind, pure, Except.pure, h0, h1]
          · have e' : ¬ k2 < key := h2
            simp [search, scanUp, getKey, bind, Except.bind, pure, Except.pure, e, h0, h1, h2]
            omega
      · rcases eq_or_ne key k1 with rfl | e
        · simp [search, scanUp, getKey, bind, Except.bind, pure, Except.pure, h0]
        · have e' : ¬ k1 < key := h1
          simp [search, scanUp, getKey, bind, Except.bind, pure, Except.pure, e, h0, h1]
          try omega
    · rcases eq_or_ne key k0 with rfl | e
      · simp [search, scanUp, getKey, bind, Except.bind, pure, Except.pure]
      · have e' : ¬ k0 < key := h0
        simp [search, scanUp, getKey, bind, Except.bind, pure, Except.pure, e, h0]
        try omega

/-- The outer parts of a sorted list are sorted. -/
theorem sorted_pre {pre A post : List Int} (hs : (pre ++ A ++ post).Sorted (· ≤ ·)) :
    pre.Sorted (· ≤ ·) ∧ post.Sorted (· ≤ ·) := by
  rw [List.Sorted, List.pairwise_append, List.pairwise_append] at hs
  exact ⟨hs.1.1, hs.2.1⟩

/-- The function `search` on a well shaped tree whose keys are in non-decreasing
order decides membership in the traversal. -/
theorem search_spec : ∀ (h : Nat) (T : btree) (key : Int),
    wellShaped h T = true → (inorder T).Sorted (· ≤ ·) →
    search T key = .ok (decide (key ∈ inorder T)) := by
  intro h
  induction h using Nat.strong_induction_on with
  | _ h ih =>
    intro T key hT hs
    obtain ⟨k0, k1, k2, n, l, c0, c1, c2, c3, rfl, hn1, hn3, hl⟩ := wellShaped_count hT
    rcases h with _ | _ | h
    · simp [wellShaped] at hT
    · obtain rfl : l = true := by simpa using hl
      exact search_leaf k0 k1 k2 n c0 c1 c2 c3 key hn1 hn3 hs
    · obtain rfl : l = false := by simpa using hl
      obtain ⟨i, hscan, hi, hlo, hhi⟩ := scanUp_spec k0 k1 k2 n false c0 c1 c2 c3 key hn3
      obtain ⟨pre, post, c, hc, hio, hpre, hpost, hcs, -⟩ :=
        node_ctx k0 k1 k2 n c0 c1 c2 c3 i hn1 hn3 hi
      have hcsh := hcs h hT
      rw [hio] at hs ⊢
      have hchild := search_child k0 k1 k2 n c0 c1 c2 c3 key i c hc
      have hrec := ih (h + 1) (by omega) c key hcsh (sorted_mid hs)
      obtain ⟨hspre, hspost⟩ := sorted_pre hs
      have hnpre : key ∉ pre := by
        rcases hpre with ⟨_, hp⟩ | ⟨L, a, hpos, ha, hp⟩
        · simp [hp]
        · rcases hlo with hlo | ⟨a', ha', hlt⟩
          · omega
          · obtain rfl : a' = a := Except.ok.inj (ha'.symm.trans ha)
            intro hmem
            subst hp
            have := sorted_app_last hspre key hmem
            omega
      rcases hhi with rfl | ⟨hlt, a, ha, hle⟩
      · -- the scan ran to the end: the key can only be in the last child
        have hp : post = [] := by
          rcases hpost with ⟨_, hp⟩ | ⟨_, _, hlt, _, _⟩
          · exact hp
          · omega
        subst hp
        simp only [search, hscan, bind, Except.bind, pure, Except.pure, lt_irrefl, if_false]
        simp only [Bool.false_eq_true, if_false, hchild, hrec]
        simp [hnpre]
      · obtain ⟨M, hp⟩ : ∃ M, post = a :: M := by
          rcases hpost with ⟨_, _⟩ | ⟨a', M, _, ha', hp⟩
          · omega
          · obtain rfl : a = a' := Except.ok.inj (ha.symm.trans ha')
            exact ⟨M, hp⟩
        subst hp
        rcases eq_or_ne key a with rfl | hne
        · simp [search, hscan, hlt, ha, bind, Except.bind, pure, Except.pure]
        · have hnpost : key ∉ a :: M := by
            intro hmem
            have := sorted_cons_first hspost key hmem
            omega
          simp only [search, hscan, hlt, ha, bind, Except.bind, pure, Except.pure, if_true]
          simp only [beq_iff_eq, hne, if_false, Bool.false_eq_true, hchild, hrec]
          simp [hnpre, hnpost]

/-- On a valid tree `traverse` returns `inorder`. -/
theorem traverse_valid {T : btree} (hv : Valid T) : traverse T = .ok (inorder T) := by
  rcases hv with rfl | ⟨hsh, -⟩
  · rfl
  · exact traverse_eq_inorder _ _ hsh

/-- Validity in terms of `inorder`. -/
theorem valid_iff (T : btree) :
    Valid T ↔ T = NULL ∨ (wellShaped (height T) T = true ∧ (inorder T).Sorted (· < ·)) := by
  constructor
  · rintro (rfl | ⟨hsh, l, hl, hs⟩)
    · exact Or.inl rfl
    · rw [traverse_eq_inorder _ _ hsh] at hl
      cases hl
      exact Or.inr ⟨hsh, hs⟩
  · rintro (rfl | ⟨hsh, hs⟩)
    · exact Or.inl rfl
    · exact Or.inr ⟨hsh, _, traverse_eq_inorder _ _ hsh, hs⟩

/-- A strictly increasing list is non-decreasing. -/
theorem sorted_le_of_lt {l : List Int} (h : l.Sorted (· < ·)) : l.Sorted (· ≤ ·) :=
  List.Pairwise.imp (fun hab => le_of_lt hab) h

/-- Trees on which the insertion and search lemmas work: empty, or well shaped
with keys in non-decreasing order. -/
theorem weak_of_valid {T : btree} (hv : Valid T) :
    T = NULL ∨ (wellShaped (height T) T = true ∧ (inorder T).Sorted (· ≤ ·)) := by
  rcases (valid_iff T).1 hv with h | ⟨h1, h2⟩
  · exact Or.inl h
  · exact Or.inr ⟨h1, sorted_le_of_lt h2⟩

/-- The function `insert` with a new key on a valid tree. -/
theorem insert_valid (T : btree) (k : Int) (hv : Valid T) (hk : k ∉ inorder T) :
    ∃ T', insert T k = .ok T' ∧ wellShaped (height T') T' = true ∧ Valid T' ∧
      inorder T' = (inorder T).orderedInsert (· ≤ ·) k := by
  obtain ⟨T', h1, h2, h3, h4, -, -⟩ := insert_spec T k (weak_of_valid hv)
  have hsl : (inorder T).Sorted (· < ·) := by
    rcases (valid_iff T).1 hv with rfl | ⟨-, hs⟩
    · simp [inorder]
    · exact hs
  have hnd : (inorder T').Nodup :=
    h3.nodup_iff.2 (List.nodup_cons.2 ⟨hk, hsl.nodup⟩)
  refine ⟨T', h1, h2, (valid_iff T').2 (Or.inr ⟨h2, h4.lt_of_le hnd⟩), ?_⟩
  exact List.eq_of_perm_of_sorted (h3.trans (List.perm_orderedInsert _ _ _).symm) h4
    ((sorted_le_of_lt hsl).orderedInsert k _)

/-- Inserting a list of new, distinct keys into a valid tree. -/
theorem insertAll_valid : ∀ (keys : List Int) (T : btree), Valid T → (keys ++ inorder T).Nodup →
    ∃ T', insertAll T keys = .ok T' ∧ Valid T' ∧ (keys = [] ∨ wellShaped (height T') T' = true) ∧
      (inorder T').Perm (keys ++ inorder T) := by
  intro keys
  induction keys with
  | nil => intro T hv _; exact ⟨T, rfl, hv, Or.inl rfl, List.Perm.refl _⟩
  | cons k ks ih =>
    intro T hv hnd
    have hk : k ∉ inorder T := by
      intro hmem
      have := (List.nodup_cons.1 hnd).1
      exact this (List.mem_append.2 (Or.inr hmem))
    obtain ⟨T1, h1, hsh1, hv1, hio1⟩ := insert_valid T k hv hk
    have hp1 : (inorder T1).Perm (k :: inorder T) := by
      rw [hio1]; exact List.perm_orderedInsert _ _ _
    have hnd1 : (ks ++ inorder T1).Nodup := by
      have : (ks ++ inorder T1).Perm (k :: ks ++ inorder T) :=
        ((List.Perm.append_left ks hp1).trans List.perm_middle)
      exact this.nodup_iff.2 hnd
    obtain ⟨T', h2, hv2, hsh2, hp2⟩ := ih T1 hv1 hnd1
    refine ⟨T', by simp [insertAll, h1, h2, bind, Except.bind], hv2, Or.inr ?_, ?_⟩
    · rcases hsh2 with rfl | h
      · cases h2; exact hsh1
      · exact h
    · exact hp2.trans ((List.Perm.append_left ks hp1).trans List.perm_middle)

/-- C1: for every valid B-tree `T` (the empty tree included) and every key `k`
not stored in it, `insert` succeeds and the in-order traversal of the new tree
is the traversal of `T` with `k` inserted at its sorted position; hence
inserting the keys of any duplicate-free list one by one into the empty tree
and traversing yields exactly those keys in strictly increasing order; and the
16 keys of `main` yield `1 2 3 4 5 6 7 10 11 12 13 14 15 17 20 22`. -/
theorem insert_traverse_sorted :
    (∀ (T : btree) (k : Int) (l : List Int), Valid T → traverse T = .ok l → k ∉ l →
      ∃ T', insert T k = .ok T' ∧ traverse T' = .ok (l.orderedInsert (· ≤ ·) k)) ∧
    (∀ keys : List Int, keys.Nodup →
      ∃ T l, insertAll NULL keys = .ok T ∧ traverse T = .ok l ∧
        l.Sorted (· < ·) ∧ l.Perm keys) ∧
    (∃ T, insertAll NULL [7, 11, 3, 10, 14, 13, 1, 15, 4, 5, 20, 22, 2, 17, 12, 6] = .ok T ∧
      traverse T = .ok [1, 2, 3, 4, 5, 6, 7, 10, 11, 12, 13, 14, 15, 17, 20, 22]) := by
  refine ⟨?_, ?_, ⟨_, rfl, rfl⟩⟩
  · intro T k l hv ht hk
    rw [traverse_valid hv] at ht
    cases ht
    obtain ⟨T', h1, -, hv', hio⟩ := insert_valid T k hv hk
    exact ⟨T', h1, by rw [traverse_valid hv', hio]⟩
  · intro keys hnd
    obtain ⟨T, h1, hv, -, hp⟩ := insertAll_valid keys NULL (Or.inl rfl) (by simpa [inorder] using hnd)
    refine ⟨T, inorder T, h1, traverse_valid hv, ?_, by simpa [inorder] using hp⟩
    rcases (valid_iff T).1 hv with rfl | ⟨-, hs⟩
    · simp [inorder]
    · exact hs

/-- C3: on every non-empty valid B-tree, `search` returns 1 exactly when the key
occurs in the in-order traversal; on the 16-key tree of `main`, `search(14)` is 1
and `search(21)` is 0. -/
theorem search_iff_mem :
    (∀ (T : btree) (k : Int) (l : List Int), Valid T → T ≠ NULL → traverse T = .ok l →
      ∃ b, search T k = .ok b ∧ (b = true ↔ k ∈ l)) ∧
    (∃ T, insertAll NULL [7, 11, 3, 10, 14, 13, 1, 15, 4, 5, 20, 22, 2, 17, 12, 6] = .ok T ∧
      search T 14 = .ok true ∧ search T 21 = .ok false) := by
  refine ⟨?_, ⟨_, rfl, rfl, rfl⟩⟩
  intro T k l hv hne ht
  rw [traverse_valid hv] at ht
  cases ht
  rcases weak_of_valid hv with h | ⟨hsh, hs⟩
  · exact absurd h hne
  · exact ⟨_, search_spec _ T k hsh hs, by simp⟩

/-- C4: for every valid B-tree (possibly empty) and every integer `k`, the call
`search(root, k)` after `insert(k)` returns 1; consequently after inserting the
keys of a duplicate-free list into the empty tree each of them is found. -/
theorem search_after_insert :
    (∀ (T : btree) (k : Int), Valid T →
      ∃ T', insert T k = .ok T' ∧ search T' k = .ok true) ∧
    (∀ keys : List Int, keys.Nodup →
      ∃ T, insertAll NULL keys = .ok T ∧ ∀ k ∈ keys, search T k = .ok true) := by
  constructor
  · intro T k hv
    obtain ⟨T', h1, h2, h3, h4, -, -⟩ := insert_spec T k (weak_of_valid hv)
    refine ⟨T', h1, ?_⟩
    rw [search_spec _ T' k h2 h4]
    simp [h3.mem_iff]
  · intro keys hnd
    obtain ⟨T, h1, hv, hsh, hp⟩ :=
      insertAll_valid keys NULL (Or.inl rfl) (by simpa [inorder] using hnd)
    refine ⟨T, h1, ?_⟩
    intro k hk
    rcases hsh with rfl | hsh
    · simp at hk
    · rcases weak_of_valid hv with rfl | ⟨-, hs⟩
      · simp [wellShaped] at hsh
      · rw [search_spec _ T k hsh hs]
        have : k ∈ inorder T := hp.mem_iff.2 (by simpa [inorder] using hk)
        simp [this]

/-- C6: `insert` preserves the B-tree invariants: for every valid B-tree `T` and
every key `k` not stored in it, the tree after `insert(k)` is well shaped (every
node, the root included, holds between `t - 1` and `2 * t - 1` keys, every
internal node has `count + 1` children, all leaves are at the same depth) and
is again a valid B-tree. -/
theorem insert_preserves_invariants (T : btree) (k : Int) (l : List Int) (hv : Valid T)
    (ht : traverse T = .ok l) (hk : k ∉ l) :
    ∃ T', insert T k = .ok T' ∧ wellShaped (height T') T' = true ∧ Valid T' := by
  rw [traverse_valid hv] at ht
  cases ht
  obtain ⟨T', h1, h2, h3, -⟩ := insert_valid T k hv hk
  exact ⟨T', h1, h2, h3⟩

/-- Validity of a concrete tree from its shape and its traversal. -/
theorem valid_of_eval {T : btree} {l : List Int} (h1 : wellShaped (height T) T = true)
    (h2 : traverse T = .ok l) (h3 : l.Sorted (· < ·)) : Valid T :=
  Or.inr ⟨h1, l, h2, h3⟩

theorem treeA_valid : Valid treeA :=
  valid_of_eval (l := [1, 2, 3, 4, 5, 6, 7, 8, 9, 10]) rfl rfl (by decide)
theorem treeB_valid : Valid treeB :=
  valid_of_eval (l := [1, 2, 3, 4, 5, 6, 7, 8, 9, 10, 11]) rfl rfl (by decide)
theorem treeC_valid : Valid treeC :=
  valid_of_eval (l := [2, 4, 6, 8, 10, 12, 14, 16, 18, 20]) rfl rfl (by decide)
theorem treeD_valid : Valid treeD :=
  valid_of_eval (l := [2, 4, 6, 8, 10, 12, 14, 16, 18, 20]) rfl rfl (by decide)
theorem treeE_valid : Valid treeE := valid_of_eval (l := [1, 2, 3, 4]) rfl rfl (by decide)

/-- A non-empty tree that is not well shaped is not valid. -/
theorem not_valid_of_eval {T : btree} (h0 : T ≠ NULL) (h1 : wellShaped (height T) T = false) :
    ¬ Valid T := by
  rintro (h | ⟨h, -⟩)
  · exact h0 h
  · rw [h1] at h; cases h

/-- The deletions of `main` up to key 10 go well: after deleting 20, 22, 2, 1,
3, 7, 10 from the 16-key tree the traversal is `4 5 6 11 12 13 14 15 17`. -/
theorem main_deletions :
    (do
      let T ← insertAll NULL [7, 11, 3, 10, 14, 13, 1, 15, 4, 5, 20, 22, 2, 17, 12, 6]
      let T ← deleteAll T [20, 22, 2, 1, 3, 7, 10]
      traverse T) = .ok [4, 5, 6, 11, 12, 13, 14, 15, 17] := rfl

/-- C2 (evaluation at a failing input): `treeA` is the valid B-tree built by
inserting 7, 1, 2, 10, 9, 8, 4, 6, 3, 5; it stores 8; `delete(root, 8)` returns
without reporting an error, but the traversal afterwards is `1 2 3 4 5 6 7 9`:
key 10 has been lost together with the leaf that held it. -/
theorem delete_loses_key :
    insertAll NULL [7, 1, 2, 10, 9, 8, 4, 6, 3, 5] = .ok treeA ∧ Valid treeA ∧
    traverse treeA = .ok [1, 2, 3, 4, 5, 6, 7, 8, 9, 10] ∧
    ∃ T', deleteRoot treeA 8 = .ok (T', false) ∧ traverse T' = .ok [1, 2, 3, 4, 5, 6, 7, 9] :=
  ⟨rfl, treeA_valid, rfl, _, rfl, rfl⟩

/-- C5 (evaluation at a failing input): `treeB` is the valid B-tree built by
inserting 7, 4, 8, 5, 10, 11, 6, 2, 9, 1, 3; it stores 10; `delete(root, 10)`
returns, and the following `search(root, 10)` dereferences a null child pointer
instead of returning 0. -/
theorem search_after_delete_faults :
    insertAll NULL [7, 4, 8, 5, 10, 11, 6, 2, 9, 1, 3] = .ok treeB ∧ Valid treeB ∧
    search treeB 10 = .ok true ∧
    ∃ T', deleteRoot treeB 10 = .ok (T', false) ∧ search T' 10 = .error .nullDeref :=
  ⟨rfl, treeB_valid, rfl, _, rfl, rfl⟩

/-- C7 (evaluation at a failing input): after `delete(root, 8)` on the valid
B-tree `treeB` (which stores 8) the tree is no longer a valid B-tree: an
internal node with two keys has a null pointer as its third child, and the
traversal `1 2 3 4 5 6 7 9 10` has lost key 11. -/
theorem delete_breaks_invariants :
    Valid treeB ∧ traverse treeB = .ok [1, 2, 3, 4, 5, 6, 7, 8, 9, 10, 11] ∧
    ∃ T', deleteRoot treeB 8 = .ok (T', false) ∧ T' ≠ NULL ∧
      wellShaped (height T') T' = false ∧ ¬ Valid T' ∧
      traverse T' = .ok [1, 2, 3, 4, 5, 6, 7, 9, 10] :=
  ⟨treeB_valid, rfl, _, rfl, by decide, rfl, not_valid_of_eval (by decide) rfl, rfl⟩

/-- C8 (evaluation at a failing input): `treeC` is the valid B-tree built by
inserting 8, 4, 2, 18, 20, 16, 14, 6, 12, 10; it does not store 15;
`delete(root, 15)` reports that the key is missing, and the traversal
afterwards has lost key 20. -/
theorem delete_absent_loses_key :
    insertAll NULL [8, 4, 2, 18, 20, 16, 14, 6, 12, 10] = .ok treeC ∧ Valid treeC ∧
    traverse treeC = .ok [2, 4, 6, 8, 10, 12, 14, 16, 18, 20] ∧
    ∃ T', deleteRoot treeC 15 = .ok (T', true) ∧
      traverse T' = .ok [2, 4, 6, 8, 10, 12, 14, 16, 18] :=
  ⟨rfl, treeC_valid, rfl, _, rfl, rfl⟩

/-- C10 (evaluation at a failing input): `treeD` is the valid B-tree built by
inserting 18, 14, 20, 16, 10, 6, 12, 8, 4, 2; it does not store 15;
`delete(root, 15)` dereferences a null child pointer and never reaches the
branch that reports the missing key. -/
theorem delete_absent_faults :
    insertAll NULL [18, 14, 20, 16, 10, 6, 12, 8, 4, 2] = .ok treeD ∧ Valid treeD ∧
    traverse treeD = .ok [2, 4, 6, 8, 10, 12, 14, 16, 18, 20] ∧
    deleteRoot treeD 15 = .error .nullDeref :=
  ⟨rfl, treeD_valid, rfl, rfl⟩

/-- C9 (counterexample): `treeE` is the valid B-tree built by inserting 1, 2, 3,
4; it does not store 0; `delete(root, 0)` reports the missing key, but on the
way down it has rotated a key from the right leaf into the left one, so the
tree is not structurally equal to `treeE` (the traversal is the same). -/
theorem delete_absent_restructures :
    insertAll NULL [1, 2, 3, 4] = .ok treeE ∧ Valid treeE ∧
    traverse treeE = .ok [1, 2, 3, 4] ∧
    ∃ T', deleteRoot treeE 0 = .ok (T', true) ∧ T' ≠ treeE ∧ traverse T' = .ok [1, 2, 3, 4] :=
  ⟨rfl, treeE_valid, rfl, _, rfl, by decide, rfl⟩

/-- A live key of a node occurs in its traversal. -/
theorem getKey_mem (k0 k1 k2 : Int) (n : Nat) (l : Bool) (c0 c1 c2 c3 : btree) (i : Nat) (a : Int)
    (hn3 : n ≤ 3) (hi : i < n) (ha : getKey (mk k0 k1 k2 n l c0 c1 c2 c3) i = .ok a) :
    a ∈ inorder (mk k0 k1 k2 n l c0 c1 c2 c3) := by
  have hn' : n = 1 ∨ n = 2 ∨ n = 3 := by omega
  rcases hn' with rfl | rfl | rfl <;> interval_cases i <;> cases l <;>
    simp [getKey] at ha <;> subst ha <;> simp [inorder]

/-- Storing a child back into its own slot changes nothing. -/
theorem setChild_same (T : btree) (i : Nat) (c : btree) (hc : getChild T i = .ok c) :
    setChild T i c = .ok T := by
  match T, i, hc with
  | mk _ _ _ _ _ _ _ _ _, 0, hc => cases hc; rfl
  | mk _ _ _ _ _ _ _ _ _, 1, hc => cases hc; rfl
  | mk _ _ _ _ _ _ _ _ _, 2, hc => cases hc; rfl
  | mk _ _ _ _ _ _ _ _ _, 3, hc => cases hc; rfl
  | mk _ _ _ _ _ _ _ _ _, _ + 4, hc => simp [getChild] at hc
  | NULL, _, hc => simp [getChild] at hc

/-- Unfolding `descendsFilled` at an internal node. -/
theorem descendsFilled_child (k0 k1 k2 : Int) (n : Nat) (c0 c1 c2 c3 : btree) (key : Int)
    (i : Nat) (c : btree)
    (hscan : scanUp (mk k0 k1 k2 n false c0 c1 c2 c3) key n 0 = .ok i)
    (hd : descendsFilled (mk k0 k1 k2 n false c0 c1 c2 c3) key = true) :
    getChild (mk k0 k1 k2 n false c0 c1 c2 c3) i = .ok c →
    (∃ m, getCount c = .ok m ∧ t ≤ m) ∧ descendsFilled c key = true := by
  intro hc
  simp only [descendsFilled, hscan] at hd
  match i, hc with
  | 0, hc =>
    cases hc
    simp only [Bool.false_eq_true, if_false, Bool.and_eq_true] at hd
    cases hcnt : getCount c0 with
    | error e => simp [hcnt] at hd
    | ok m =>
      simp [hcnt] at hd
      exact ⟨⟨m, rfl, hd.1⟩, hd.2⟩
  | 1, hc =>
    cases hc
    simp only [Bool.false_eq_true, if_false, Bool.and_eq_true] at hd
    cases hcnt : getCount c1 with
    | error e => simp [hcnt] at hd
    | ok m =>
      simp [hcnt] at hd
      exact ⟨⟨m, rfl, hd.1⟩, hd.2⟩
  | 2, hc =>
    cases hc
    simp only [Bool.false_eq_true, if_false, Bool.and_eq_true] at hd
    cases hcnt : getCount c2 with
    | error e => simp [hcnt] at hd
    | ok m =>
      simp [hcnt] at hd
      exact ⟨⟨m, rfl, hd.1⟩, hd.2⟩
  | 3, hc =>
    cases hc
    simp only [Bool.false_eq_true, if_false, Bool.and_eq_true] at hd
    cases hcnt : getCount c3 with
    | error e => simp [hcnt] at hd
    | ok m =>
      simp [hcnt] at hd
      exact ⟨⟨m, rfl, hd.1⟩, hd.2⟩
  | _ + 4, hc => simp [getChild] at hc

/-- The function `delete` for a missing key when no child on the path has to be
refilled: the branch for a missing key is reached, the node is unchanged and
`root` is not assigned. -/
theorem delete_absent_spec : ∀ (h : Nat) (T : btree) (key : Int) (fuel : Nat),
    wellShaped h T = true → key ∉ inorder T → descendsFilled T key = true → h ≤ fuel →
    delete fuel T key = .ok { node := T, root := none, notFound := true } := by
  intro h
  induction h using Nat.strong_induction_on with
  | _ h ih =>
    intro T key fuel hT hk hd hfuel
    obtain ⟨k0, k1, k2, n, l, c0, c1, c2, c3, rfl, hn1, hn3, hl⟩ := wellShaped_count hT
    have hn0 : n ≠ 0 := by omega
    obtain ⟨i, hscan, hi, -, hhi⟩ := scanUp_spec k0 k1 k2 n l c0 c1 c2 c3 key hn3
    rcases h with _ | _ | h
    · simp [wellShaped] at hT
    · obtain ⟨fuel, rfl⟩ : ∃ f, fuel = f + 1 := ⟨fuel - 1, by omega⟩
      obtain rfl : l = true := by simpa using hl
      rcases hhi with rfl | ⟨hlt, a, ha, -⟩
      · simp [delete, getCount_mk, getLeaf_mk, hscan, hn0, bind, Except.bind, pure, Except.pure]
      · have hne : key ≠ a := by
          rintro rfl
          exact hk (getKey_mem k0 k1 k2 n true c0 c1 c2 c3 i key hn3 hlt ha)
        simp [delete, getCount_mk, getLeaf_mk, hscan, hn0, hlt, ha, hne, bind, Except.bind, pure,
          Except.pure]
    · obtain ⟨fuel, rfl⟩ : ∃ f, fuel = f + 1 := ⟨fuel - 1, by omega⟩
      obtain rfl : l = false := by simpa using hl
      obtain ⟨pre, post, c, hc, hio, -, -, hcs, -⟩ :=
        node_ctx k0 k1 k2 n c0 c1 c2 c3 i hn1 hn3 hi
      obtain ⟨⟨m, hm, hmt⟩, hdc⟩ :=
        descendsFilled_child k0 k1 k2 n c0 c1 c2 c3 key i c hscan hd hc
      have hkc : key ∉ inorder c := by
        intro hmem
        apply hk
        rw [hio]
        simp [hmem]
      have hrec := ih (h + 1) (by omega) c key fuel (hcs h hT) hkc hdc (by omega)
      have hm2 : ¬ m < 2 := by simpa using hmt
      rcases hhi with rfl | ⟨hlt, a, ha, -⟩
      · simp [delete, getCount_mk, getLeaf_mk, hscan, hn0, hm, hm2, hc, hrec,
          setChild_same _ _ _ hc, bind, Except.bind, pure, Except.pure]
      · have hne : key ≠ a := by
          rintro rfl
          exact hk (getKey_mem k0 k1 k2 n false c0 c1 c2 c3 i key hn3 hlt ha)
        simp [delete, getCount_mk, getLeaf_mk, hscan, hn0, hlt, ha, hne, hm, hm2, hc, hrec,
          setChild_same _ _ _ hc, bind, Except.bind, pure, Except.pure]

/-- C9 (amended): for every non-empty valid B-tree `T` and every key `k` not
stored in it, if every child on the path that `delete` follows for `k` already
holds at least `t` keys, then `delete(root, k)` reports the missing key and
leaves a tree that is structurally equal to `T`. -/
theorem delete_absent_unchanged (T : btree) (k : Int) (l : List Int) (hv : Valid T)
    (hne : T ≠ NULL) (ht : traverse T = .ok l) (hk : k ∉ l)
    (hd : descendsFilled T k = true) : deleteRoot T k = .ok (T, true) := by
  rw [traverse_valid hv] at ht
  cases ht
  rcases hv with h | ⟨hsh, -⟩
  · exact absurd h hne
  · have := delete_absent_spec _ T k (height T + 1) hsh hk hd (by omega)
    simp [deleteRoot, this, bind, Except.bind, pure, Except.pure]

/-- Witness for C9 (amended): deleting the missing key 5 from `treeE`, whose
second leaf holds two keys. -/
theorem delete_absent_unchanged_witness :
    Valid treeE ∧ treeE ≠ NULL ∧ traverse treeE = .ok [1, 2, 3, 4] ∧ (5 : Int) ∉ [1, 2, 3, 4] ∧
      descendsFilled treeE 5 = true ∧ deleteRoot treeE 5 = .ok (treeE, true) :=
  ⟨treeE_valid, by decide, rfl, by decide, rfl,
    delete_absent_unchanged treeE 5 [1, 2, 3, 4] treeE_valid (by decide) rfl (by decide) rfl⟩

/-- Witness for C1: inserting the new key 5 into the valid tree `treeE`. -/
theorem insert_traverse_sorted_witness :
    Valid treeE ∧ traverse treeE = .ok [1, 2, 3, 4] ∧ (5 : Int) ∉ [1, 2, 3, 4] ∧
      ∃ T', insert treeE 5 = .ok T' ∧
        traverse T' = .ok (([1, 2, 3, 4] : List Int).orderedInsert (· ≤ ·) 5) :=
  ⟨treeE_valid, rfl, by decide,
    insert_traverse_sorted.1 treeE 5 [1, 2, 3, 4] treeE_valid rfl (by decide)⟩

/-- Witness for C3: searching the stored key 3 in the valid tree `treeE`. -/
theorem search_iff_mem_witness :
    Valid treeE ∧ treeE ≠ NULL ∧ traverse treeE = .ok [1, 2, 3, 4] ∧
      ∃ b, search treeE 3 = .ok b ∧ (b = true ↔ (3 : Int) ∈ [1, 2, 3, 4]) :=
  ⟨treeE_valid, by decide, rfl,
    search_iff_mem.1 treeE 3 [1, 2, 3, 4] treeE_valid (by decide) rfl⟩

/-- Witness for C4: inserting 6 into the valid tree `treeE` and searching it. -/
theorem search_after_insert_witness :
    Valid treeE ∧ ∃ T', insert treeE 6 = .ok T' ∧ search T' 6 = .ok true :=
  ⟨treeE_valid, search_after_insert.1 treeE 6 treeE_valid⟩

/-- Witness for C6: inserting the new key 0 into the valid tree `treeE`. -/
theorem insert_preserves_invariants_witness :
    Valid treeE ∧ traverse treeE = .ok [1, 2, 3, 4] ∧ (0 : Int) ∉ [1, 2, 3, 4] ∧
      ∃ T', insert treeE 0 = .ok T' ∧ wellShaped (height T') T' = true ∧ Valid T' :=
  ⟨treeE_valid, rfl, by decide,
    insert_preserves_invariants treeE 0 [1, 2, 3, 4] treeE_valid rfl (by decide)⟩

/-- C11 (evaluation at a failing input): `treeF` is the valid B-tree built by
inserting the distinct keys 2, 10, 1, 9, 7, 8, 6, 5, 4, 3; deleting them in the
order 8, 1, 2, 3, 4, 5, 6, 7, 9, 10 stops at the first call: `delete(root, 8)`
dereferences a null child pointer, so the tree is never emptied. -/
theorem insert_delete_all_faults :
    insertAll NULL [2, 10, 1, 9, 7, 8, 6, 5, 4, 3] = .ok treeF ∧ Valid treeF ∧
    ([2, 10, 1, 9, 7, 8, 6, 5, 4, 3] : List Int).Perm [8, 1, 2, 3, 4, 5, 6, 7, 9, 10] ∧
    deleteRoot treeF 8 = .error .nullDeref ∧
    deleteAll treeF [8, 1, 2, 3, 4, 5, 6, 7, 9, 10] = .error .nullDeref :=
  ⟨rfl, valid_of_eval (l := [1, 2, 3, 4, 5, 6, 7, 8, 9, 10]) rfl rfl (by decide), by decide, rfl,
    rfl⟩

/-- C12 (evaluation at the failing input): on the empty tree `search(root, k)`
reads `node->count` through the null pointer, for every `k`; the empty tree is
what `root` is at start-up and again after the only key has been deleted. -/
theorem search_empty_faults :
    (∀ k : Int, search NULL k = .error .nullDeref) ∧
    (∃ T, insert NULL 5 = .ok T ∧ deleteRoot T 5 = .ok (NULL, false)) :=
  ⟨fun _ => rfl, _, rfl, rfl⟩

/-- C13 (evaluation at the failing input): on the empty tree `delete(root, k)`
reads `node->count` through the null pointer, for every `k`; it neither reports
a missing key nor returns. -/
theorem delete_empty_faults :
    (∀ k : Int, deleteRoot NULL k = .error .nullDeref) ∧
    (∀ (k : Int) (fuel : Nat), delete (fuel + 1) NULL k = .error .nullDeref) :=
  ⟨fun _ => rfl, fun _ _ => rfl⟩

/-- C14 (evaluation at a failing input): `rotateRight(root, 1)` on the valid tree
`treeA`, whose children are internal, the left one with two keys and the right
one with one key.  The keys move as claimed, but the right child ends up with
the children `[5 6]`, `[8]` and a null pointer: its old last child `[10]` is
lost, and the traversal of the node loses key 10. -/
theorem rotateRight_loses_child :
    getChild treeA 0 = .ok (mk 2 4 9 2 false
      (mk 1 2 7 1 true NULL NULL NULL NULL) (mk 3 4 6 1 true NULL NULL NULL NULL)
      (mk 5 6 0 2 true NULL NULL NULL NULL) (mk 10 0 0 1 true NULL NULL NULL NULL)) ∧
    getChild treeA 1 = .ok (mk 9 0 0 1 false
      (mk 8 0 0 1 true NULL NULL NULL NULL) (mk 10 0 0 1 true NULL NULL NULL NULL) NULL NULL) ∧
    traverse treeA = .ok [1, 2, 3, 4, 5, 6, 7, 8, 9, 10] ∧
    ∃ node' right', rotateRight treeA 1 = .ok node' ∧ getChild node' 1 = .ok right' ∧
      keyList node' = [4] ∧ keyList right' = [7, 9] ∧
      childList right' = [mk 5 6 0 2 true NULL NULL NULL NULL,
        mk 8 0 0 1 true NULL NULL NULL NULL, NULL] ∧
      traverse node' = .ok [1, 2, 3, 4, 5, 6, 7, 8, 9] :=
  ⟨rfl, rfl, rfl, _, _, rfl, rfl, rfl, rfl, rfl, rfl⟩

set_option maxHeartbeats 4000000 in
/-- C15: `rotateLeft(node, i)` on an internal node with `i < count` whose child
`i + 1` holds at least `t` keys and whose child `i` holds fewer than `2 * t - 1`
keys (the two children having the same leaf flag).  Afterwards child `i` has its
old keys followed by the old separator `keys[i]`, `keys[i]` is the old first key
of the right sibling, which has lost exactly that key; the other keys and
children of `node` are unchanged; for internal siblings the old first child of
the right sibling is appended to the children of child `i` and the right
sibling keeps the remaining children in order.  The in-order traversal of
`node` is unchanged. -/
theorem rotateLeft_spec (k0 k1 k2 : Int) (n : Nat) (c0 c1 c2 c3 : btree) (i : Nat)
    (a0 a1 a2 : Int) (lc : Nat) (l : Bool) (x0 x1 x2 x3 : btree)
    (b0 b1 b2 : Int) (rc : Nat) (y0 y1 y2 y3 : btree) (s : Int)
    (hn : n ≤ 2 * t - 1) (hi : i < n)
    (hL : getChild (mk k0 k1 k2 n false c0 c1 c2 c3) i = .ok (mk a0 a1 a2 lc l x0 x1 x2 x3))
    (hR : getChild (mk k0 k1 k2 n false c0 c1 c2 c3) (i + 1) =
      .ok (mk b0 b1 b2 rc l y0 y1 y2 y3))
    (hs : getKey (mk k0 k1 k2 n false c0 c1 c2 c3) i = .ok s)
    (hlc : lc < 2 * t - 1) (hrc : t ≤ rc) (hrc' : rc ≤ 2 * t - 1) :
    ∃ node' L' R', rotateLeft (mk k0 k1 k2 n false c0 c1 c2 c3) i = .ok node' ∧
      getChild node' i = .ok L' ∧ getChild node' (i + 1) = .ok R' ∧
      keyList L' = keyList (mk a0 a1 a2 lc l x0 x1 x2 x3) ++ [s] ∧
      keyList (mk b0 b1 b2 rc l y0 y1 y2 y3) = b0 :: keyList R' ∧
      keyList node' = (keyList (mk k0 k1 k2 n false c0 c1 c2 c3)).set i b0 ∧
      childList node' =
        ((childList (mk k0 k1 k2 n false c0 c1 c2 c3)).set i L').set (i + 1) R' ∧
      getLeaf L' = .ok l ∧ getLeaf R' = .ok l ∧
      (l = false →
        childList L' = childList (mk a0 a1 a2 lc l x0 x1 x2 x3) ++ [y0] ∧
        childList (mk b0 b1 b2 rc l y0 y1 y2 y3) = y0 :: childList R') ∧
      inorder node' = inorder (mk k0 k1 k2 n false c0 c1 c2 c3) ∧
      (∀ h, wellShaped (h + 2) (mk k0 k1 k2 n false c0 c1 c2 c3) = true →
        traverse node' = traverse (mk k0 k1 k2 n false c0 c1 c2 c3)) := by
  simp only [t_eq] at hn hlc hrc hrc'
  have hn' : n = 1 ∨ n = 2 ∨ n = 3 := by omega
  have hlc' : lc = 0 ∨ lc = 1 ∨ lc = 2 := by omega
  have hrc'' : rc = 2 ∨ rc = 3 := by omega
  have key : ∃ node' L' R', rotateLeft (mk k0 k1 k2 n false c0 c1 c2 c3) i = .ok node' ∧
      getChild node' i = .ok L' ∧ getChild node' (i + 1) = .ok R' ∧
      keyList L' = keyList (mk a0 a1 a2 lc l x0 x1 x2 x3) ++ [s] ∧
      keyList (mk b0 b1 b2 rc l y0 y1 y2 y3) = b0 :: keyList R' ∧
      keyList node' = (keyList (mk k0 k1 k2 n false c0 c1 c2 c3)).set i b0 ∧
      childList node' =
        ((childList (mk k0 k1 k2 n false c0 c1 c2 c3)).set i L').set (i + 1) R' ∧
      getLeaf L' = .ok l ∧ getLeaf R' = .ok l ∧
      (l = false →
        childList L' = childList (mk a0 a1 a2 lc l x0 x1 x2 x3) ++ [y0] ∧
        childList (mk b0 b1 b2 rc l y0 y1 y2 y3) = y0 :: childList R') ∧
      inorder node' = inorder (mk k0 k1 k2 n false c0 c1 c2 c3) ∧
      (∀ h, wellShaped (h + 2) (mk k0 k1 k2 n false c0 c1 c2 c3) = true →
        wellShaped (h + 2) node' = true) := by
    rcases hn' with rfl | rfl | rfl <;> interval_cases i <;> simp only [getChild] at hL hR <;>
      cases hL <;> cases hR <;> simp only [getKey] at hs <;> cases hs <;>
      rcases hlc' with rfl | rfl | rfl <;> rcases hrc'' with rfl | rfl <;> cases l <;>
      refine ⟨_, _, _, rfl, rfl, rfl, rfl, rfl, rfl, rfl, rfl, rfl, ?_, ?_, ?_⟩ <;>
      first
        | rfl
        | (simp [keyList, childList, inorder]; done)
        | (intro h; cases h <;> simp [wellShaped] <;> tauto)
  obtain ⟨node', L', R', h1, h2, h3, h4, h5, h6, h7, h8, h9, h10, h11, h12⟩ := key
  refine ⟨node', L', R', h1, h2, h3, h4, h5, h6, h7, h8, h9, h10, h11, ?_⟩
  intro h hw
  rw [traverse_eq_inorder _ _ hw, traverse_eq_inorder _ _ (h12 h hw), h11]

theorem ite_bind_except {α β : Type} (c : Prop) [Decidable c] (a b : Except Fault α)
    (f : α → Except Fault β) :
    ((if c then a else b) >>= f) = if c then a >>= f else b >>= f := by
  split <;> rfl

theorem ok_bind {α β : Type} (a : α) (f : α → Except Fault β) :
    ((Except.ok a : Except Fault α) >>= f) = f a := rfl

/-- The function `delete` is `deleteStep`, then the recursive call if there is
one, then `deleteEnd`. -/
theorem delete_eq_step (fuel : Nat) (node : btree) (key : Int) :
    delete (fuel + 1) node key = (do
      match ← deleteStep node key with
      | .done r => deleteEnd r
      | .call node' j child key' => do
          let r ← delete fuel child key'
          deleteEnd { r with node := (← setChild node' j r.node) }) := by
  cases node with
  | NULL => rfl
  | mk k0 k1 k2 n l c0 c1 c2 c3 =>
    simp only [delete, deleteStep, deleteFromNonLeaf, deleteEnd, getCount_mk, getLeaf_mk,
      bind_assoc, pure_bind, ok_bind, ite_bind_except]

/-- A record with filled slots holds one to three keys. -/
theorem slotsFilled_count {c : btree} {m : Nat} (hf : slotsFilled c = true)
    (hm : getCount c = .ok m) : 1 ≤ m ∧ m ≤ 3 := by
  cases c with
  | NULL => simp [getCount] at hm
  | mk k0 k1 k2 n l c0 c1 c2 c3 =>
    simp [getCount] at hm
    subst hm
    simp [slotsFilled] at hf
    omega

/-- The slots of a record with filled slots hold trees with filled slots. -/
theorem getChild_filled {T c : btree} {i : Nat} (hf : slotsFilled T = true)
    (hc : getChild T i = .ok c) : slotsFilled c = true := by
  match T, i, hc with
  | mk _ _ _ _ _ _ _ _ _, 0, hc => cases hc; simp [slotsFilled] at hf; simp [hf]
  | mk _ _ _ _ _ _ _ _ _, 1, hc => cases hc; simp [slotsFilled] at hf; simp [hf]
  | mk _ _ _ _ _ _ _ _ _, 2, hc => cases hc; simp [slotsFilled] at hf; simp [hf]
  | mk _ _ _ _ _ _ _ _ _, 3, hc => cases hc; simp [slotsFilled] at hf; simp [hf]
  | mk _ _ _ _ _ _ _ _ _, _ + 4, hc => simp [getChild] at hc
  | NULL, _, hc => simp [getChild] at hc

/-- Storing into a slot that can be read succeeds and keeps `count`. -/
theorem setChild_count {T c : btree} {i : Nat} (hc : getChild T i = .ok c) (c' : btree) :
    ∃ T', setChild T i c' = .ok T' ∧ getCount T' = getCount T := by
  match T, i, hc with
  | mk _ _ _ _ _ _ _ _ _, 0, _ => exact ⟨_, rfl, rfl⟩
  | mk _ _ _ _ _ _ _ _ _, 1, _ => exact ⟨_, rfl, rfl⟩
  | mk _ _ _ _ _ _ _ _ _, 2, _ => exact ⟨_, rfl, rfl⟩
  | mk _ _ _ _ _ _ _ _ _, 3, _ => exact ⟨_, rfl, rfl⟩
  | mk _ _ _ _ _ _ _ _ _, _ + 4, hc => simp [getChild] at hc
  | NULL, _, hc => simp [getChild] at hc

theorem slotsFilled_mk (k0 k1 k2 : Int) (n : Nat) (l : Bool) (c0 c1 c2 c3 : btree) :
    slotsFilled (mk k0 k1 k2 n l c0 c1 c2 c3) = true ↔
      1 ≤ n ∧ n ≤ 3 ∧ kidsFilled (mk k0 k1 k2 n l c0 c1 c2 c3) = true := by
  simp [slotsFilled, kidsFilled]
  tauto

theorem kidsFilled_of_slotsFilled {T : btree} (h : slotsFilled T = true) : kidsFilled T = true := by
  cases T with
  | NULL => rfl
  | mk k0 k1 k2 n l c0 c1 c2 c3 => exact ((slotsFilled_mk k0 k1 k2 n l c0 c1 c2 c3).1 h).2.2

/-- A record whose slots are filled and that holds one to three keys. -/
theorem slotsFilled_of_kids {T : btree} {m : Nat} (hk : kidsFilled T = true)
    (hm : getCount T = .ok m) (h1 : 1 ≤ m) (h3 : m ≤ 3) : slotsFilled T = true := by
  cases T with
  | NULL => rfl
  | mk k0 k1 k2 n l c0 c1 c2 c3 =>
    simp only [getCount_mk, Except.ok.injEq] at hm
    subst hm
    exact (slotsFilled_mk k0 k1 k2 n l c0 c1 c2 c3).2 ⟨h1, h3, hk⟩

theorem getChild_kids {T c : btree} {i : Nat} (hf : kidsFilled T = true)
    (hc : getChild T i = .ok c) : slotsFilled c = true := by
  match T, i, hc with
  | mk _ _ _ _ _ _ _ _ _, 0, hc => cases hc; simp [kidsFilled] at hf; simp [hf]
  | mk _ _ _ _ _ _ _ _ _, 1, hc => cases hc; simp [kidsFilled] at hf; simp [hf]
  | mk _ _ _ _ _ _ _ _ _, 2, hc => cases hc; simp [kidsFilled] at hf; simp [hf]
  | mk _ _ _ _ _ _ _ _ _, 3, hc => cases hc; simp [kidsFilled] at hf; simp [hf]
  | mk _ _ _ _ _ _ _ _ _, _ + 4, hc => simp [getChild] at hc
  | NULL, _, hc => simp [getChild] at hc

theorem setChild_kids {T T' c : btree} {i : Nat} (hf : kidsFilled T = true)
    (hc : slotsFilled c = true) (h : setChild T i c = .ok T') :
    kidsFilled T' = true ∧ getCount T' = getCount T := by
  match T, i, h with
  | mk _ _ _ _ _ _ _ _ _, 0, h => cases h; simp [kidsFilled] at hf; simp [kidsFilled, hf, hc, getCount]
  | mk _ _ _ _ _ _ _ _ _, 1, h => cases h; simp [kidsFilled] at hf; simp [kidsFilled, hf, hc, getCount]
  | mk _ _ _ _ _ _ _ _ _, 2, h => cases h; simp [kidsFilled] at hf; simp [kidsFilled, hf, hc, getCount]
  | mk _ _ _ _ _ _ _ _ _, 3, h => cases h; simp [kidsFilled] at hf; simp [kidsFilled, hf, hc, getCount]
  | mk _ _ _ _ _ _ _ _ _, _ + 4, h => simp [setChild] at h
  | NULL, _, h => simp [setChild] at h

/-- After `rotateRight` the child `i` holds two keys and has filled slots. -/
theorem rotateRight_filled (k0 k1 k2 : Int) (n : Nat) (l : Bool) (c0 c1 c2 c3 : btree)
    (i : Nat) (L R : btree) (lc : Nat)
    (hf : slotsFilled (mk k0 k1 k2 n l c0 c1 c2 c3) = true) (hi : 1 ≤ i)
    (hL : getChild (mk k0 k1 k2 n l c0 c1 c2 c3) (i - 1) = .ok L)
    (hR : getChild (mk k0 k1 k2 n l c0 c1 c2 c3) i = .ok R)
    (hlc : getCount L = .ok lc) (h2 : 2 ≤ lc) (hrc : getCount R = .ok 1) :
    ∃ nd c, rotateRight (mk k0 k1 k2 n l c0 c1 c2 c3) i = .ok nd ∧ getChild nd i = .ok c ∧
      getCount c = .ok 2 ∧ slotsFilled c = true ∧ getCount nd = .ok n ∧
      kidsFilled nd = true := by
  have hl3 := (slotsFilled_count (getChild_filled hf hL) hlc).2
  have hlc' : lc = 2 ∨ lc = 3 := by omega
  match L, R, hlc, hrc with
  | mk a0 a1 a2 _ la x0 x1 x2 x3, mk b0 b1 b2 _ lb y0 y1 y2 y3, hlc, hrc =>
    simp only [getCount_mk, Except.ok.injEq] at hlc hrc
    subst hlc hrc
    have hi' : i = 1 ∨ i = 2 ∨ i = 3 := by
      rcases i with _ | _ | _ | _ | i
      · omega
      · simp
      · simp
      · simp
      · simp [getChild] at hR
    rcases hi' with rfl | rfl | rfl <;> simp only [getChild] at hL hR <;> cases hL <;>
      cases hR <;> rcases hlc' with rfl | rfl <;> cases la <;>
      refine ⟨_, _, rfl, rfl, rfl, ?_, rfl, ?_⟩ <;> simp_all [slotsFilled, kidsFilled]

/-- After `rotateLeft` the child `i` holds two keys and has filled slots. -/
theorem rotateLeft_filled (k0 k1 k2 : Int) (n : Nat) (l : Bool) (c0 c1 c2 c3 : btree)
    (i : Nat) (L R : btree) (rc : Nat)
    (hf : slotsFilled (mk k0 k1 k2 n l c0 c1 c2 c3) = true)
    (hL : getChild (mk k0 k1 k2 n l c0 c1 c2 c3) i = .ok L)
    (hR : getChild (mk k0 k1 k2 n l c0 c1 c2 c3) (i + 1) = .ok R)
    (hlc : getCount L = .ok 1) (hrc : getCount R = .ok rc) (h2 : 2 ≤ rc) :
    ∃ nd c, rotateLeft (mk k0 k1 k2 n l c0 c1 c2 c3) i = .ok nd ∧ getChild nd i = .ok c ∧
      getCount c = .ok 2 ∧ slotsFilled c = true ∧ getCount nd = .ok n ∧
      kidsFilled nd = true := by
  have hr3 := (slotsFilled_count (getChild_filled hf hR) hrc).2
  have hrc' : rc = 2 ∨ rc = 3 := by omega
  match L, R, hlc, hrc with
  | mk a0 a1 a2 _ la x0 x1 x2 x3, mk b0 b1 b2 _ lb y0 y1 y2 y3, hlc, hrc =>
    simp only [getCount_mk, Except.ok.injEq] at hlc hrc
    subst hlc hrc
    have hi' : i = 0 ∨ i = 1 ∨ i = 2 := by
      rcases i with _ | _ | _ | i
      · simp
      · simp
      · simp
      · simp [getChild] at hR
    rcases hi' with rfl | rfl | rfl <;> simp only [getChild] at hL hR <;> cases hL <;>
      cases hR <;> rcases hrc' with rfl | rfl <;> cases la <;>
      refine ⟨_, _, rfl, rfl, rfl, ?_, rfl, ?_⟩ <;> simp_all [slotsFilled, kidsFilled]

/-- After `merge` the child `i` holds three keys and has filled slots, and `node`
has one key less. -/
theorem merge_filled (k0 k1 k2 : Int) (n : Nat) (l : Bool) (c0 c1 c2 c3 : btree)
    (i : Nat) (L R : btree)
    (hf : slotsFilled (mk k0 k1 k2 n l c0 c1 c2 c3) = true) (hi : i < n)
    (hL : getChild (mk k0 k1 k2 n l c0 c1 c2 c3) i = .ok L)
    (hR : getChild (mk k0 k1 k2 n l c0 c1 c2 c3) (i + 1) = .ok R)
    (hlc : getCount L = .ok 1) (hrc : getCount R = .ok 1) :
    ∃ nd c, merge (mk k0 k1 k2 n l c0 c1 c2 c3) i = .ok nd ∧ getChild nd i = .ok c ∧
      getCount c = .ok 3 ∧ slotsFilled c = true ∧ getCount nd = .ok (n - 1) ∧
      kidsFilled nd = true := by
  have hn := slotsFilled_count hf (getCount_mk k0 k1 k2 n l c0 c1 c2 c3)
  have hn' : n = 1 ∨ n = 2 ∨ n = 3 := by omega
  match L, R, hlc, hrc with
  | mk a0 a1 a2 _ la x0 x1 x2 x3, mk b0 b1 b2 _ lb y0 y1 y2 y3, hlc, hrc =>
    simp only [getCount_mk, Except.ok.injEq] at hlc hrc
    subst hlc hrc
    rcases hn' with rfl | rfl | rfl <;> interval_cases i <;> simp only [getChild] at hL hR <;>
      cases hL <;> cases hR <;> cases la <;>
      refine ⟨_, _, rfl, rfl, rfl, ?_, rfl, ?_⟩ <;> simp_all [slotsFilled, kidsFilled]

/-- The child slots `0 .. 3` of a record can be read. -/
theorem getChild_ok (k0 k1 k2 : Int) (n : Nat) (l : Bool) (c0 c1 c2 c3 : btree) (i : Nat)
    (hi : i ≤ 3) : ∃ c, getChild (mk k0 k1 k2 n l c0 c1 c2 c3) i = .ok c := by
  interval_cases i <;> exact ⟨_, rfl⟩

/-- Assigning `keys[i]` with `i < 3` succeeds and changes nothing else. -/
theorem setKey_ok (k0 k1 k2 : Int) (n : Nat) (l : Bool) (c0 c1 c2 c3 : btree) (i : Nat)
    (v : Int) (hi : i < 3) :
    ∃ q0 q1 q2, setKey (mk k0 k1 k2 n l c0 c1 c2 c3) i v = .ok (mk q0 q1 q2 n l c0 c1 c2 c3) := by
  interval_cases i <;> exact ⟨_, _, _, rfl⟩

/-- What `deleteStep` leaves on a node with filled slots: the node has lost at
most one key, and a recursive call goes to a child with filled slots that holds
at least `t` keys. -/
theorem getChild_keys (k0 k1 k2 q0 q1 q2 : Int) (n : Nat) (l : Bool) (c0 c1 c2 c3 : btree)
    (i : Nat) :
    getChild (mk q0 q1 q2 n l c0 c1 c2 c3) i = getChild (mk k0 k1 k2 n l c0 c1 c2 c3) i := by
  rcases i with _ | _ | _ | _ | _ <;> rfl

/-- The function `deleteFromLeaf` changes keys and `count` only. -/
theorem deleteFromLeaf_frame (k0 k1 k2 : Int) (n : Nat) (l : Bool) (c0 c1 c2 c3 : btree)
    (i : Nat) (nd : btree) (h : deleteFromLeaf (mk k0 k1 k2 n l c0 c1 c2 c3) i = .ok nd) :
    ∃ q0 q1 q2, nd = mk q0 q1 q2 (n - 1) l c0 c1 c2 c3 := by
  have loop : ∀ (cnt j : Nat) (p0 p1 p2 : Int) (x : btree),
      forUp (fun j nd => do setKey nd (j - 1) (← getKey nd j)) cnt j
        (mk p0 p1 p2 n l c0 c1 c2 c3) = .ok x → ∃ q0 q1 q2, x = mk q0 q1 q2 n l c0 c1 c2 c3 := by
    intro cnt
    induction cnt with
    | zero => intro j p0 p1 p2 x hx; cases hx; exact ⟨_, _, _, rfl⟩
    | succ cnt ih =>
      intro j p0 p1 p2 x hx
      simp only [forUp] at hx
      cases hk : getKey (mk p0 p1 p2 n l c0 c1 c2 c3) j with
      | error e => simp [hk, bind, Except.bind] at hx
      | ok v =>
        obtain ⟨j', hj'⟩ : ∃ j', j - 1 = j' := ⟨_, rfl⟩
        rw [hj'] at hx
        rcases j' with _ | _ | _ | j' <;>
          simp [hk, setKey, bind, Except.bind] at hx <;> exact ih _ _ _ _ _ hx
  simp only [deleteFromLeaf, getCount_mk, ok_bind] at h
  cases hloop : forUp (fun j nd => do setKey nd (j - 1) (← getKey nd j)) (n - (i + 1)) (i + 1)
      (mk k0 k1 k2 n l c0 c1 c2 c3) with
  | error e => rw [hloop] at h; cases h
  | ok x =>
    rw [hloop] at h
    obtain ⟨q0, q1, q2, rfl⟩ := loop _ _ _ _ _ _ hloop
    cases h
    exact ⟨_, _, _, rfl⟩

theorem deleteStep_filled (k0 k1 k2 : Int) (n : Nat) (l : Bool) (c0 c1 c2 c3 : btree)
    (key : Int) (hf : slotsFilled (mk k0 k1 k2 n l c0 c1 c2 c3) = true) :
    ∀ st, deleteStep (mk k0 k1 k2 n l c0 c1 c2 c3) key = .ok st →
    match st with
    | .done r =>
        r.root = none ∧ (∃ m, getCount r.node = .ok m ∧ n ≤ m + 1 ∧ m ≤ n) ∧
        kidsFilled r.node = true
    | .call nd j c _ =>
        (∃ m, getCount c = .ok m ∧ 2 ≤ m) ∧ slotsFilled c = true ∧
        (∃ m, getCount nd = .ok m ∧ n ≤ m + 1 ∧ m ≤ n) ∧ getChild nd j = .ok c ∧
        kidsFilled nd = true := by
  intro st h
  have hkids := kidsFilled_of_slotsFilled hf
  have hn := slotsFilled_count hf (getCount_mk k0 k1 k2 n l c0 c1 c2 c3)
  obtain ⟨hn1, hn3⟩ := hn
  obtain ⟨i, hscan, hi, -, hhi⟩ := scanUp_spec k0 k1 k2 n l c0 c1 c2 c3 key hn3
  have hi3 : i ≤ 3 := by omega
  obtain ⟨ci, hci⟩ := getChild_ok k0 k1 k2 n l c0 c1 c2 c3 i hi3
  have hfi := getChild_filled hf hci
  -- is the key found at index `i`?
  by_cases hfound : i < n ∧ getKey (mk k0 k1 k2 n l c0 c1 c2 c3) i = .ok key
  · obtain ⟨hlt, hk⟩ := hfound
    cases l with
    | true =>
      cases hd : deleteFromLeaf (mk k0 k1 k2 n true c0 c1 c2 c3) i with
      | error e =>
        simp [deleteStep, getCount_mk, getLeaf_mk, hscan, hlt, hk, hd, bind, Except.bind, pure,
          Except.pure] at h
      | ok nd =>
        simp [deleteStep, getCount_mk, getLeaf_mk, hscan, hlt, hk, hd, bind, Except.bind, pure,
          Except.pure] at h
        subst h
        obtain ⟨q0, q1, q2, rfl⟩ := deleteFromLeaf_frame _ _ _ _ _ _ _ _ _ _ _ hd
        exact ⟨rfl, ⟨n - 1, rfl, by omega, by omega⟩, hkids⟩
    | false =>
      have hi2 : i < 3 := by omega
      cases hm : getCount ci with
      | error e =>
        simp [deleteStep, getCount_mk, getLeaf_mk, hscan, hlt, hk, hci, hm, bind, Except.bind,
          pure, Except.pure] at h
      | ok m =>
        have hmb := slotsFilled_count hfi hm
        by_cases hge : 2 ≤ m
        · -- the predecessor replaces the key
          cases hp : getPred (mk k0 k1 k2 n false c0 c1 c2 c3) i with
          | error e =>
            simp [deleteStep, getCount_mk, getLeaf_mk, hscan, hlt, hk, hci, hm, hge, hp, bind,
              Except.bind, pure, Except.pure] at h
          | ok p =>
            obtain ⟨q0, q1, q2, hset⟩ := setKey_ok k0 k1 k2 n false c0 c1 c2 c3 i p hi2
            have hci' : getChild (mk q0 q1 q2 n false c0 c1 c2 c3) i = .ok ci :=
              (getChild_keys k0 k1 k2 q0 q1 q2 n false c0 c1 c2 c3 i).trans hci
            simp [deleteStep, getCount_mk, getLeaf_mk, hscan, hlt, hk, hci, hm, hge, hp, hset,
              hci', bind, Except.bind, pure, Except.pure] at h
            subst h
            exact ⟨⟨m, hm, hge⟩, hfi, ⟨n, rfl, by omega, le_refl _⟩, hci', hkids⟩
        · have hm1 : m = 1 := by omega
          subst hm1
          obtain ⟨cj, hcj⟩ := getChild_ok k0 k1 k2 n false c0 c1 c2 c3 (i + 1) (by omega)
          have hfj := getChild_filled hf hcj
          cases hm2 : getCount cj with
          | error e =>
            simp [deleteStep, getCount_mk, getLeaf_mk, hscan, hlt, hk, hci, hm, hcj, hm2, bind,
              Except.bind, pure, Except.pure] at h
          | ok m2 =>
            have hmb2 := slotsFilled_count hfj hm2
            by_cases hge2 : 2 ≤ m2
            · -- the successor replaces the key
              cases hp : getSucc (mk k0 k1 k2 n false c0 c1 c2 c3) i with
              | error e =>
                simp [deleteStep, getCount_mk, getLeaf_mk, hscan, hlt, hk, hci, hm, hcj, hm2,
                  hge2, hp, bind, Except.bind, pure, Except.pure] at h
              | ok p =>
                obtain ⟨q0, q1, q2, hset⟩ := setKey_ok k0 k1 k2 n false c0 c1 c2 c3 i p hi2
                have hcj' : getChild (mk q0 q1 q2 n false c0 c1 c2 c3) (i + 1) = .ok cj :=
                  (getChild_keys k0 k1 k2 q0 q1 q2 n false c0 c1 c2 c3 (i + 1)).trans hcj
                simp [deleteStep, getCount_mk, getLeaf_mk, hscan, hlt, hk, hci, hm, hcj, hm2,
                  hge2, hp, hset, hcj', bind, Except.bind, pure, Except.pure] at h
                subst h
                exact ⟨⟨m2, hm2, hge2⟩, hfj, ⟨n, rfl, by omega, le_refl _⟩, hcj', hkids⟩
            · -- both children are minimal: merge
              have hm21 : m2 = 1 := by omega
              subst hm21
              obtain ⟨nd, c, hmerge, hc, hcc, hfc, hcn, hknd⟩ :=
                merge_filled k0 k1 k2 n false c0 c1 c2 c3 i ci cj hf hlt hci hcj hm hm2
              simp [deleteStep, getCount_mk, getLeaf_mk, hscan, hlt, hk, hci, hm, hcj, hm2,
                hmerge, hc, bind, Except.bind, pure, Except.pure] at h
              subst h
              exact ⟨⟨3, hcc, by omega⟩, hfc, ⟨n - 1, hcn, by omega, by omega⟩, hc, hknd⟩
  · have hcase : (i < n ∧ ∃ a, getKey (mk k0 k1 k2 n l c0 c1 c2 c3) i = .ok a ∧ ¬ key = a) ∨
        (¬ i < n ∧ ∃ _ : Unit, True ∧ True) := by
      by_cases hlt : i < n
      · rcases hhi with h0 | ⟨_, a, ha, _⟩
        · omega
        · exact .inl ⟨hlt, a, ha, fun e => hfound ⟨hlt, by rw [ha, e]⟩⟩
      · exact .inr ⟨hlt, (), trivial, trivial⟩
    rcases hcase with ⟨hlt, a, ha, hne⟩ | ⟨hlt, a, ha, hne⟩ <;>
    · cases l with
      | true =>
        simp [deleteStep, getCount_mk, getLeaf_mk, hscan, hlt, ha, hne, bind, Except.bind,
          pure, Except.pure] at h
        subst h
        exact ⟨rfl, ⟨n, rfl, by omega, le_refl _⟩, hkids⟩
      | false =>
        cases hm : getCount ci with
        | error e =>
          simp [deleteStep, getCount_mk, getLeaf_mk, hscan, hlt, ha, hne, hci, hm,  bind, Except.bind,
            pure, Except.pure] at h
        | ok m =>
          have hmb := slotsFilled_count hfi hm
          by_cases hge : 2 ≤ m
          · have hnlt : ¬ m < 2 := by omega
            simp [deleteStep, getCount_mk, getLeaf_mk, hscan, hlt, ha, hne, hci, hm, hnlt,  bind, Except.bind,
              pure, Except.pure] at h
            subst h
            exact ⟨⟨m, hm, hge⟩, hfi, ⟨n, rfl, by omega, le_refl _⟩, hci, hkids⟩
          · have hm1 : m = 1 := by omega
            subst hm1
            by_cases hi0 : i = 0
            · subst hi0
              have hin : ¬ 0 = n := by omega
              have hlt' : 0 < n := by omega
              obtain ⟨cr, hcr⟩ := getChild_ok k0 k1 k2 n false c0 c1 c2 c3 (0 + 1) (by omega)
              have hfr := getChild_filled hf hcr
              cases hmr : getCount cr with
              | error e =>
                simp [deleteStep, getCount_mk, getLeaf_mk, hscan, hlt, ha, hne, hci, hm, hin, hcr, hmr,  bind, Except.bind,
                  pure, Except.pure] at h
              | ok mr =>
                have hmrb := slotsFilled_count hfr hmr
                by_cases hgr : 2 ≤ mr
                · obtain ⟨nd, c, hrot, hc, hcc, hfc, hcn, hknd⟩ :=
                    rotateLeft_filled k0 k1 k2 n false c0 c1 c2 c3 0 ci cr mr hf hci hcr hm hmr hgr
                  simp [deleteStep, getCount_mk, getLeaf_mk, hscan, hlt, ha, hne, hci, hm, hin, hcr, hmr, hgr, hrot, hc,  bind, Except.bind,
                    pure, Except.pure] at h
                  subst h
                  exact ⟨⟨2, hcc, le_refl _⟩, hfc, ⟨n, hcn, by omega, le_refl _⟩, hc, hknd⟩
                · have hmr1 : mr = 1 := by omega
                  subst hmr1
                  obtain ⟨nd, c, hmg, hc, hcc, hfc, hcn, hknd⟩ :=
                    merge_filled k0 k1 k2 n false c0 c1 c2 c3 0 ci cr hf hlt' hci hcr hm hmr
                  simp [deleteStep, getCount_mk, getLeaf_mk, hscan, hlt, ha, hne, hci, hm, hin, hcr, hmr, hmg, hc,  bind, Except.bind,
                    pure, Except.pure] at h
                  subst h
                  exact ⟨⟨3, hcc, by omega⟩, hfc, ⟨n - 1, hcn, by omega, by omega⟩, hc, hknd⟩

            · obtain ⟨cl, hcl⟩ := getChild_ok k0 k1 k2 n false c0 c1 c2 c3 (i - 1) (by omega)
              have hfl := getChild_filled hf hcl
              cases hml : getCount cl with
              | error e =>
                simp [deleteStep, getCount_mk, getLeaf_mk, hscan, hlt, ha, hne, hci, hm, hi0, hcl, hml,  bind, Except.bind,
                  pure, Except.pure] at h
              | ok ml =>
                have hmlb := slotsFilled_count hfl hml
                by_cases hgl : 2 ≤ ml
                · obtain ⟨nd, c, hrot, hc, hcc, hfc, hcn, hknd⟩ :=
                    rotateRight_filled k0 k1 k2 n false c0 c1 c2 c3 i cl ci ml hf (by omega) hcl
                      hci hml hgl hm
                  simp [deleteStep, getCount_mk, getLeaf_mk, hscan, hlt, ha, hne, hci, hm, hi0, hcl, hml, hgl, hrot, hc,  bind, Except.bind,
                    pure, Except.pure] at h
                  subst h
                  exact ⟨⟨2, hcc, le_refl _⟩, hfc, ⟨n, hcn, by omega, le_refl _⟩, hc, hknd⟩
                · have hml1 : ml = 1 := by omega
                  subst hml1
                  by_cases hin : i = n
                  · subst hin
                    have hci' : getChild (mk k0 k1 k2 i false c0 c1 c2 c3) (i - 1 + 1) = .ok ci := by
                      rw [Nat.sub_add_cancel (by omega)]; exact hci
                    obtain ⟨nd, c, hmg, hc, hcc, hfc, hcn, hknd⟩ :=
                      merge_filled k0 k1 k2 i false c0 c1 c2 c3 (i - 1) cl ci hf (by omega) hcl
                        hci' hml hm
                    simp [deleteStep, getCount_mk, getLeaf_mk, hscan, hlt, ha, hne, hci, hm, hi0, hcl, hml, hmg, hc,  bind, Except.bind,
                      pure, Except.pure] at h
                    subst h
                    exact ⟨⟨3, hcc, by omega⟩, hfc, ⟨i - 1, hcn, by omega, by omega⟩, hc, hknd⟩
                  ·
                    have hlt' : i < n := by omega
                    obtain ⟨cr, hcr⟩ := getChild_ok k0 k1 k2 n false c0 c1 c2 c3 (i + 1) (by omega)
                    have hfr := getChild_filled hf hcr
                    cases hmr : getCount cr with
                    | error e =>
                      simp [deleteStep, getCount_mk, getLeaf_mk, hscan, hlt, ha, hne, hci, hm, hi0, hcl, hml, hin, hcr, hmr,  bind, Except.bind,
                        pure, Except.pure] at h
                    | ok mr =>
                      have hmrb := slotsFilled_count hfr hmr
                      by_cases hgr : 2 ≤ mr
                      · obtain ⟨nd, c, hrot, hc, hcc, hfc, hcn, hknd⟩ :=
                          rotateLeft_filled k0 k1 k2 n false c0 c1 c2 c3 i ci cr mr hf hci hcr hm hmr hgr
                        simp [deleteStep, getCount_mk, getLeaf_mk, hscan, hlt, ha, hne, hci, hm, hi0, hcl, hml, hin, hcr, hmr, hgr, hrot, hc,  bind, Except.bind,
                          pure, Except.pure] at h
                        subst h
                        exact ⟨⟨2, hcc, le_refl _⟩, hfc, ⟨n, hcn, by omega, le_refl _⟩, hc, hknd⟩
                      · have hmr1 : mr = 1 := by omega
                        subst hmr1
                        obtain ⟨nd, c, hmg, hc, hcc, hfc, hcn, hknd⟩ :=
                          merge_filled k0 k1 k2 n false c0 c1 c2 c3 i ci cr hf hlt' hci hcr hm hmr
                        simp [deleteStep, getCount_mk, getLeaf_mk, hscan, hlt, ha, hne, hci, hm, hi0, hcl, hml, hin, hcr, hmr, hmg, hc,  bind, Except.bind,
                          pure, Except.pure] at h
                        subst h
                        exact ⟨⟨3, hcc, by omega⟩, hfc, ⟨n - 1, hcn, by omega, by omega⟩, hc, hknd⟩

theorem deleteEnd_pos (r : DelOut) (m : Nat) (hm : getCount r.node = .ok m) (h1 : 1 ≤ m) :
    deleteEnd r = .ok r := by
  have : ¬ m = 0 := by omega
  simp [deleteEnd, hm, this, bind, Except.bind, pure, Except.pure]

/-- What the end of `delete` does to a record whose slots are filled and that
lost at most one of its `n` keys. -/
theorem deleteEnd_filled (r0 r : DelOut) (n m : Nat) (hroot : r0.root = none)
    (hm : getCount r0.node = .ok m) (hnm : n ≤ m + 1) (hmn : m ≤ n) (hn3 : n ≤ 3)
    (hk : kidsFilled r0.node = true) (h : deleteEnd r0 = .ok r) :
    kidsFilled r.node = true ∧ (∃ m, getCount r.node = .ok m ∧ n ≤ m + 1 ∧ m ≤ n) ∧
      (2 ≤ n → r.root = none) ∧ (∀ p, r.root = some p → slotsFilled p = true) ∧
      (r.root = none → slotsFilled r.node = true) := by
  by_cases h0 : m = 0
  · subst h0
    obtain ⟨nd0, rt0, nf0⟩ := r0
    cases nd0 with
    | NULL => simp [getCount] at hm
    | mk k0 k1 k2 cnt l c0 c1 c2 c3 =>
      simp only [getCount_mk, Except.ok.injEq] at hm
      subst hm
      have hc0 : slotsFilled c0 = true := getChild_kids hk (i := 0) rfl
      cases l <;> simp [deleteEnd, getCount, getLeaf, getChild, bind, Except.bind, pure,
        Except.pure] at h <;> subst h
      · exact ⟨hk, ⟨0, rfl, hnm, hmn⟩, (fun h2 => by omega), (fun p hp => by cases hp; exact hc0),
          (fun hn => by cases hn)⟩
      · exact ⟨hk, ⟨0, rfl, hnm, hmn⟩, (fun h2 => by omega), (fun p hp => by cases hp; rfl),
          (fun hn => by cases hn)⟩
  · rw [deleteEnd_pos r0 m hm (by omega)] at h
    cases h
    exact ⟨hk, ⟨m, hm, hnm, hmn⟩, fun _ => hroot, (fun p hp => by rw [hroot] at hp; cases hp),
      fun _ => slotsFilled_of_kids hk hm (by omega) (by omega)⟩

/-- The function `delete` of this embedding on a tree with filled slots: every
recursive call is on a node with at least `t` keys and does not replace `root`,
and what a call that returns leaves behind has filled slots again. -/
theorem delete_filled : ∀ (fuel : Nat) (node : btree) (key : Int), slotsFilled node = true →
    callsFilled fuel node key = true ∧
    (∀ n r, getCount node = .ok n → delete fuel node key = .ok r →
      kidsFilled r.node = true ∧ (∃ m, getCount r.node = .ok m ∧ n ≤ m + 1 ∧ m ≤ n) ∧
      (2 ≤ n → r.root = none) ∧ (∀ p, r.root = some p → slotsFilled p = true) ∧
      (r.root = none → slotsFilled r.node = true)) := by
  intro fuel
  induction fuel with
  | zero =>
    intro node key _
    refine ⟨rfl, fun n r _ h => ?_⟩
    simp [delete] at h
  | succ fuel ih =>
    intro node key hf
    cases node with
    | NULL =>
      refine ⟨rfl, fun n r hn _ => ?_⟩
      simp [getCount] at hn
    | mk k0 k1 k2 n l c0 c1 c2 c3 =>
      have hn3 := (slotsFilled_count hf (getCount_mk k0 k1 k2 n l c0 c1 c2 c3)).2
      have hstepf := deleteStep_filled k0 k1 k2 n l c0 c1 c2 c3 key hf
      cases hstep : deleteStep (mk k0 k1 k2 n l c0 c1 c2 c3) key with
      | error e =>
        refine ⟨by simp [callsFilled, hstep], fun n' r _ h => ?_⟩
        rw [delete_eq_step, hstep] at h
        simp [bind, Except.bind] at h
      | ok st =>
        have hst := hstepf st hstep
        cases st with
        | done r0 =>
          obtain ⟨hroot, ⟨m, hm, hnm, hmn⟩, hk0⟩ := hst
          refine ⟨by simp [callsFilled, hstep], fun n' r hn' h => ?_⟩
          simp only [getCount_mk, Except.ok.injEq] at hn'
          subst hn'
          rw [delete_eq_step, hstep] at h
          simp only [ok_bind] at h
          exact deleteEnd_filled r0 r n m hroot hm hnm hmn hn3 hk0 h
        | call nd j c key' =>
          obtain ⟨⟨m, hm, h2m⟩, hfc, ⟨m', hm', hnm', hmn'⟩, hc, hknd⟩ := hst
          obtain ⟨ih1, ih2⟩ := ih c key' hfc
          constructor
          · simp only [callsFilled, hstep, hm, ih1, Bool.and_eq_true, decide_eq_true_eq, t_eq]
            refine ⟨⟨h2m, trivial⟩, ?_⟩
            cases hd : delete fuel c key' with
            | error e => rfl
            | ok r => simp [(ih2 m r hm hd).2.2.1 h2m]
          · intro n' r hn' h
            simp only [getCount_mk, Except.ok.injEq] at hn'
            subst hn'
            rw [delete_eq_step, hstep] at h
            simp only [ok_bind] at h
            cases hd : delete fuel c key' with
            | error e => rw [hd] at h; simp [bind, Except.bind] at h
            | ok r1 =>
              obtain ⟨-, -, hr1, -, hs1⟩ := ih2 m r1 hm hd
              have hroot1 := hr1 h2m
              obtain ⟨T', hset, hcnt⟩ := setChild_count hc r1.node
              obtain ⟨hkT, -⟩ := setChild_kids hknd (hs1 hroot1) hset
              rw [hd] at h
              simp only [ok_bind, hset] at h
              exact deleteEnd_filled { node := T', root := r1.root, notFound := r1.notFound } r n m'
                hroot1 (hcnt.trans hm') hnm' hmn' hn3 hkT h

/-- The traversal of an internal node whose live children are well shaped, also
when the node holds no key yet (the fresh root made by `insert`). -/
theorem traverse_children (h : Nat) (k0 k1 k2 : Int) (n : Nat) (c0 c1 c2 c3 : btree)
    (hn : n ≤ 2) (hs0 : wellShaped (h + 1) c0 = true) (hs1 : 1 ≤ n → wellShaped (h + 1) c1 = true)
    (hs2 : 2 ≤ n → wellShaped (h + 1) c2 = true) :
    traverse (mk k0 k1 k2 n false c0 c1 c2 c3) = .ok (inorder (mk k0 k1 k2 n false c0 c1 c2 c3)) := by
  have hn' : n = 0 ∨ n = 1 ∨ n = 2 := by omega
  rcases hn' with rfl | rfl | rfl
  · simp [traverse, forUp, inorder, traverse_eq_inorder _ _ hs0, bind, Except.bind, pure,
      Except.pure]
  · exact traverse_eq_inorder (h + 2) _ (by simp [wellShaped, hs0, hs1])
  · exact traverse_eq_inorder (h + 2) _ (by simp [wellShaped, hs0, hs1, hs2])

set_option maxHeartbeats 4000000 in
/-- C16: `splitChild(node, i)` on a non-full internal node (`count < 2 * t - 1`,
`i <= count`) whose child `i` holds exactly `2 * t - 1` keys.  Afterwards `node`
has one more key and one more child: `keys[i]` is the old median key of the
child, the children `i` and `i + 1` are the two halves, and the other keys and
children keep their order.  Child `i` holds the old keys `0 .. t - 2`, the new
child `i + 1` the old keys `t .. 2 * t - 2`; both hold `t - 1` keys and have the
leaf flag of the old child; the last `t` children of an internal child have
moved to the new sibling.  The in-order traversal of `node` is unchanged. -/
theorem splitChild_behaviour (k0 k1 k2 : Int) (n : Nat) (c0 c1 c2 c3 : btree) (i : Nat)
    (a0 a1 a2 : Int) (l : Bool) (x0 x1 x2 x3 : btree)
    (hn : n < 2 * t - 1) (hi : i ≤ n)
    (hc : getChild (mk k0 k1 k2 n false c0 c1 c2 c3) i =
      .ok (mk a0 a1 a2 (2 * t - 1) l x0 x1 x2 x3)) :
    ∃ node' L' R', splitChild (mk k0 k1 k2 n false c0 c1 c2 c3) i = .ok node' ∧
      getChild node' i = .ok L' ∧ getChild node' (i + 1) = .ok R' ∧
      getCount node' = .ok (n + 1) ∧ getLeaf node' = .ok false ∧
      keyList node' = (keyList (mk k0 k1 k2 n false c0 c1 c2 c3)).take i ++
        a1 :: (keyList (mk k0 k1 k2 n false c0 c1 c2 c3)).drop i ∧
      childList node' = (childList (mk k0 k1 k2 n false c0 c1 c2 c3)).take i ++
        L' :: R' :: (childList (mk k0 k1 k2 n false c0 c1 c2 c3)).drop (i + 1) ∧
      (keyList (mk a0 a1 a2 (2 * t - 1) l x0 x1 x2 x3)).get? (t - 1) = some a1 ∧
      keyList L' = (keyList (mk a0 a1 a2 (2 * t - 1) l x0 x1 x2 x3)).take (t - 1) ∧
      keyList R' = (keyList (mk a0 a1 a2 (2 * t - 1) l x0 x1 x2 x3)).drop t ∧
      getCount L' = .ok (t - 1) ∧ getCount R' = .ok (t - 1) ∧
      getLeaf L' = .ok l ∧ getLeaf R' = .ok l ∧
      (l = false →
        childList L' = (childList (mk a0 a1 a2 (2 * t - 1) l x0 x1 x2 x3)).take t ∧
        childList R' = (childList (mk a0 a1 a2 (2 * t - 1) l x0 x1 x2 x3)).drop t) ∧
      inorder node' = inorder (mk k0 k1 k2 n false c0 c1 c2 c3) ∧
      (∀ h, wellShaped (h + 1) c0 = true → (1 ≤ n → wellShaped (h + 1) c1 = true) →
        (2 ≤ n → wellShaped (h + 1) c2 = true) →
        traverse node' = traverse (mk k0 k1 k2 n false c0 c1 c2 c3)) := by
  simp only [t_eq] at hn hc ⊢
  have hn' : n = 0 ∨ n = 1 ∨ n = 2 := by omega
  have key : ∃ node' L' R', splitChild (mk k0 k1 k2 n false c0 c1 c2 c3) i = .ok node' ∧
      getChild node' i = .ok L' ∧ getChild node' (i + 1) = .ok R' ∧
      getCount node' = .ok (n + 1) ∧ getLeaf node' = .ok false ∧
      keyList node' = (keyList (mk k0 k1 k2 n false c0 c1 c2 c3)).take i ++
        a1 :: (keyList (mk k0 k1 k2 n false c0 c1 c2 c3)).drop i ∧
      childList node' = (childList (mk k0 k1 k2 n false c0 c1 c2 c3)).take i ++
        L' :: R' :: (childList (mk k0 k1 k2 n false c0 c1 c2 c3)).drop (i + 1) ∧
      (keyList (mk a0 a1 a2 (2 * 2 - 1) l x0 x1 x2 x3)).get? (2 - 1) = some a1 ∧
      keyList L' = (keyList (mk a0 a1 a2 (2 * 2 - 1) l x0 x1 x2 x3)).take (2 - 1) ∧
      keyList R' = (keyList (mk a0 a1 a2 (2 * 2 - 1) l x0 x1 x2 x3)).drop 2 ∧
      getCount L' = .ok (2 - 1) ∧ getCount R' = .ok (2 - 1) ∧
      getLeaf L' = .ok l ∧ getLeaf R' = .ok l ∧
      (l = false →
        childList L' = (childList (mk a0 a1 a2 (2 * 2 - 1) l x0 x1 x2 x3)).take 2 ∧
        childList R' = (childList (mk a0 a1 a2 (2 * 2 - 1) l x0 x1 x2 x3)).drop 2) ∧
      inorder node' = inorder (mk k0 k1 k2 n false c0 c1 c2 c3) := by
    rcases hn' with rfl | rfl | rfl <;> interval_cases i <;> simp only [getChild] at hc <;>
      cases hc <;> cases l <;>
      refine ⟨_, _, _, rfl, rfl, rfl, rfl, rfl, rfl, rfl, rfl, rfl, rfl, rfl, rfl, rfl, rfl, ?_,
        ?_⟩ <;>
      first
        | (intro _; exact ⟨rfl, rfl⟩)
        | simp [inorder]
  obtain ⟨node', L', R', h1, h2, h3, h4, h5, h6, h7, h8, h9, h10, h11, h12, h13, h14, h15, hin⟩ := key
  have hsp : ∀ h, wellShaped (h + 1) c0 = true → (1 ≤ n → wellShaped (h + 1) c1 = true) →
      (2 ≤ n → wellShaped (h + 1) c2 = true) →
      wellShaped (h + 2) node' = true ∧
        inorder node' = inorder (mk k0 k1 k2 n false c0 c1 c2 c3) := by
    intro h hs0 hs1 hs2
    obtain ⟨T2, e1, e2, e3, -⟩ := splitChild_spec h k0 k1 k2 n c0 c1 c2 c3 i (by omega) hi _ hc
      rfl hs0 hs1 hs2
    rw [h1] at e1
    cases e1
    exact ⟨e2, e3⟩
  refine ⟨node', L', R', h1, h2, h3, h4, h5, h6, h7, h8, h9, h10, h11, h12, h13, h14, h15, hin,
    ?_⟩
  intro h hs0 hs1 hs2
  rw [traverse_eq_inorder _ _ (hsp h hs0 hs1 hs2).1,
    traverse_children h k0 k1 k2 n c0 c1 c2 c3 (by omega) hs0 hs1 hs2, hin]

/-- Witness for C15: the root holds the key 5, its left leaf holds 1 and its right leaf 7, 9. -/
theorem rotateLeft_spec_witness :
    (1 ≤ 2 * t - 1 ∧ 0 < 1 ∧ 1 < 2 * t - 1 ∧ t ≤ 2 ∧ 2 ≤ 2 * t - 1) ∧
    ∃ node' L' R',
      rotateLeft (mk 5 0 0 1 false (mk 1 0 0 1 true NULL NULL NULL NULL)
        (mk 7 9 0 2 true NULL NULL NULL NULL) NULL NULL) 0 = .ok node' ∧
      getChild node' 0 = .ok L' ∧ getChild node' 1 = .ok R' ∧
      keyList L' = [1, 5] ∧ keyList node' = [7] ∧ keyList R' = [9] ∧
      traverse node' = .ok [1, 5, 7, 9] :=
  ⟨by decide,
    let ⟨node', L', R', h1, h2, h3, h4, h5, h6, _, _, _, _, _, h12⟩ :=
      rotateLeft_spec 5 0 0 1 (mk 1 0 0 1 true NULL NULL NULL NULL)
        (mk 7 9 0 2 true NULL NULL NULL NULL) NULL NULL 0 1 0 0 1 true NULL NULL NULL NULL
        7 9 0 2 NULL NULL NULL NULL 5 (by decide) (by decide) rfl rfl rfl (by decide) (by decide)
        (by decide)
    ⟨node', L', R', h1, h2, h3, h4, h6, (List.cons.inj h5).2.symm, (h12 0 rfl).trans rfl⟩⟩

/-- Witness for C16: the root holds the key 5, its left leaf is full with 1, 2, 3. -/
theorem splitChild_behaviour_witness :
    (1 < 2 * t - 1 ∧ 0 ≤ 1) ∧
    ∃ node' L' R',
      splitChild (mk 5 0 0 1 false (mk 1 2 3 (2 * t - 1) true NULL NULL NULL NULL)
        (mk 7 0 0 1 true NULL NULL NULL NULL) NULL NULL) 0 = .ok node' ∧
      getChild node' 0 = .ok L' ∧ getChild node' 1 = .ok R' ∧
      keyList node' = [2, 5] ∧ keyList L' = [1] ∧ keyList R' = [3] ∧
      childList node' = [L', R', mk 7 0 0 1 true NULL NULL NULL NULL] ∧
      traverse node' = .ok [1, 2, 3, 5, 7] :=
  ⟨by decide,
    let ⟨node', L', R', h1, h2, h3, _, _, h6, h7, _, h9, h10, _, _, _, _, _, _, h17⟩ :=
      splitChild_behaviour 5 0 0 1 (mk 1 2 3 (2 * t - 1) true NULL NULL NULL NULL)
        (mk 7 0 0 1 true NULL NULL NULL NULL) NULL NULL 0 1 2 3 true NULL NULL NULL NULL
        (by decide) (by decide) rfl
    ⟨node', L', R', h1, h2, h3, h6, h9, h10, h7, (h17 0 rfl (fun _ => rfl) (by decide)).trans rfl⟩⟩

set_option maxHeartbeats 4000000 in
/-- C17: `merge` undoes `splitChild`.  On a non-full internal node (`count <
2 * t - 1`, `i <= count`) whose child `i` holds exactly `2 * t - 1` keys,
`splitChild(node, i)` followed by `merge(node, i)` returns, and afterwards `node`
has its old count, key sequence and child sequence, and its child `i` is the
old child again: the same `2 * t - 1` keys, the same leaf flag and (if
internal) the same `2 * t` children in order. -/
theorem merge_splitChild (k0 k1 k2 : Int) (n : Nat) (c0 c1 c2 c3 : btree) (i : Nat)
    (a0 a1 a2 : Int) (l : Bool) (x0 x1 x2 x3 : btree)
    (hn : n < 2 * t - 1) (hi : i ≤ n)
    (hc : getChild (mk k0 k1 k2 n false c0 c1 c2 c3) i =
      .ok (mk a0 a1 a2 (2 * t - 1) l x0 x1 x2 x3)) :
    ∃ node' node'' c', splitChild (mk k0 k1 k2 n false c0 c1 c2 c3) i = .ok node' ∧
      merge node' i = .ok node'' ∧
      getCount node'' = .ok n ∧ getLeaf node'' = .ok false ∧
      keyList node'' = keyList (mk k0 k1 k2 n false c0 c1 c2 c3) ∧
      childList node'' = childList (mk k0 k1 k2 n false c0 c1 c2 c3) ∧
      getChild node'' i = .ok c' ∧
      c' = mk a0 a1 a2 (2 * t - 1) l x0 x1 x2 x3 ∧
      getCount c' = .ok (2 * t - 1) ∧ getLeaf c' = .ok l ∧
      keyList c' = [a0, a1, a2] ∧ (l = false → childList c' = [x0, x1, x2, x3]) ∧
      inorder node'' = inorder (mk k0 k1 k2 n false c0 c1 c2 c3) := by
  simp only [t_eq] at hn hc ⊢
  have hn' : n = 0 ∨ n = 1 ∨ n = 2 := by omega
  rcases hn' with rfl | rfl | rfl <;> interval_cases i <;> simp only [getChild] at hc <;>
    cases hc <;> cases l <;>
    refine ⟨_, _, _, rfl, rfl, rfl, rfl, rfl, rfl, rfl, rfl, rfl, rfl, rfl, ?_, ?_⟩ <;>
    first
      | rfl
      | (intro _; rfl)
      | (intro hh; cases hh)

/-- Witness for C17: the root holds the key 5, its left leaf is full with 1, 2, 3. -/
theorem merge_splitChild_witness :
    (1 < 2 * t - 1 ∧ 0 ≤ 1) ∧
    ∃ node' node'',
      splitChild (mk 5 0 0 1 false (mk 1 2 3 (2 * t - 1) true NULL NULL NULL NULL)
        (mk 7 0 0 1 true NULL NULL NULL NULL) NULL NULL) 0 = .ok node' ∧
      merge node' 0 = .ok node'' ∧ keyList node'' = [5] ∧
      childList node'' = [mk 1 2 3 (2 * t - 1) true NULL NULL NULL NULL,
        mk 7 0 0 1 true NULL NULL NULL NULL] :=
  ⟨by decide,
    let ⟨node', node'', _, h1, h2, _, _, h5, h6, _⟩ :=
      merge_splitChild 5 0 0 1 (mk 1 2 3 (2 * t - 1) true NULL NULL NULL NULL)
        (mk 7 0 0 1 true NULL NULL NULL NULL) NULL NULL 0 1 2 3 true NULL NULL NULL NULL
        (by decide) (by decide) rfl
    ⟨node', node'', h1, h2, h5, h6⟩⟩

/-- C19: on a non-empty valid B-tree `insert(k)` returns, and the new height is
the old height plus one if the root held exactly `2 * t - 1` keys, and the old
height otherwise. -/
theorem insert_height (T : btree) (k : Int) (hv : Valid T) (hne : T ≠ NULL) :
    ∃ T', insert T k = .ok T' ∧
      (getCount T = .ok (2 * t - 1) → height T' = height T + 1) ∧
      (getCount T ≠ .ok (2 * t - 1) → height T' = height T) := by
  obtain ⟨T', h1, -, -, -, h5, h6⟩ := insert_spec T k (weak_of_valid hv)
  refine ⟨T', h1, h5, fun h => ?_⟩
  rw [h6 h]
  rcases hv with rfl | ⟨hsh, -⟩
  · exact absurd rfl hne
  · cases T with
    | NULL => exact absurd rfl hne
    | mk k0 k1 k2 n l c0 c1 c2 c3 =>
      cases l <;> simp [height]

/-- Witness for C19: `treeE` (root not full, height 2) keeps its height when 5 is
inserted. -/
theorem insert_height_witness :
    Valid treeE ∧ treeE ≠ NULL ∧ getCount treeE ≠ .ok (2 * t - 1) ∧ height treeE = 2 ∧
      ∃ T', insert treeE 5 = .ok T' ∧ height T' = 2 :=
  ⟨treeE_valid, by decide, (fun h => by cases h), rfl, by
    obtain ⟨T', h1, -, h3⟩ := insert_height treeE 5 treeE_valid (by decide)
    exact ⟨T', h1, h3 (fun h => by cases h)⟩⟩

/-- C20: `insert(k)` for a key `k` already stored in a valid B-tree returns, and
the traversal afterwards is non-decreasing, holds `k` exactly twice and every
other key of the tree exactly once (and no further key); it is therefore not
strictly increasing any more. -/
theorem insert_duplicate (T : btree) (k : Int) (l : List Int) (hv : Valid T)
    (hl : traverse T = .ok l) (hk : k ∈ l) :
    ∃ T' l', insert T k = .ok T' ∧ traverse T' = .ok l' ∧ l'.Sorted (· ≤ ·) ∧
      l'.count k = 2 ∧ (∀ x, x ≠ k → l'.count x = l.count x) ∧
      (∀ x, x ∈ l → x ≠ k → l'.count x = 1) ∧ l' = l.orderedInsert (· ≤ ·) k ∧
      ¬ l'.Sorted (· < ·) := by
  obtain ⟨T', h1, h2, h3, h4, -, -⟩ := insert_spec T k (weak_of_valid hv)
  rw [traverse_valid hv] at hl
  cases hl
  have hsl : (inorder T).Sorted (· < ·) := by
    rcases (valid_iff T).1 hv with rfl | ⟨-, hs⟩
    · simp [inorder]
    · exact hs
  have hnd : (inorder T).Nodup := hsl.nodup
  have hck : (inorder T).count k = 1 := List.count_eq_one_of_mem hnd hk
  have hc2 : (inorder T').count k = 2 := by
    rw [h3.count_eq, List.count_cons_self, hck]
  refine ⟨T', inorder T', h1, traverse_eq_inorder _ _ h2, h4, hc2, fun x hx => ?_,
    fun x hx hxk => ?_, ?_, fun hs => ?_⟩
  · rw [h3.count_eq, List.count_cons_of_ne hx]
  · rw [h3.count_eq, List.count_cons_of_ne hxk, List.count_eq_one_of_mem hnd hx]
  · exact List.eq_of_perm_of_sorted
      (h3.trans (List.perm_orderedInsert (· ≤ ·) k (inorder T)).symm) h4
      ((sorted_le_of_lt hsl).orderedInsert k _)
  · have := List.nodup_iff_count_le_one.1 hs.nodup k
    omega

/-- Witness for C20: inserting the stored key 3 into the valid tree `treeE`. -/
theorem insert_duplicate_witness :
    Valid treeE ∧ traverse treeE = .ok [1, 2, 3, 4] ∧ (3 : Int) ∈ [1, 2, 3, 4] ∧
      ∃ T', insert treeE 3 = .ok T' ∧ traverse T' = .ok [1, 2, 3, 3, 4] :=
  ⟨treeE_valid, rfl, by decide, by
    obtain ⟨T', l', h1, h2, -, -, -, -, h7, -⟩ :=
      insert_duplicate treeE 3 [1, 2, 3, 4] treeE_valid rfl (by decide)
    subst h7
    exact ⟨T', h1, h2⟩⟩


/-- A slot that passes the test `p == NULL` holds `NULL`. -/
theorem isNULL_eq {c : btree} (h : c.isNULL = true) : c = NULL := by
  cases c with
  | NULL => rfl
  | mk _ _ _ _ _ _ _ _ _ => cases h

/-- In a well shaped tree whose unused child slots are `NULL` every record in
every slot holds between `t - 1` and `2 * t - 1` keys. -/
theorem slotsFilled_of_unusedNull : ∀ (h : Nat) (T : btree), wellShaped h T = true →
    unusedNull T = true → slotsFilled T = true := by
  intro h
  induction h using Nat.strong_induction_on with
  | _ h ih =>
    intro T hT hu
    obtain ⟨k0, k1, k2, n, l, c0, c1, c2, c3, rfl, hn1, hn3, hl⟩ := wellShaped_count hT
    rcases h with _ | _ | h
    · simp [wellShaped] at hT
    · obtain rfl : l = true := by simpa using hl
      simp only [unusedNull, Bool.not_true, Bool.false_and, Bool.false_eq_true, ite_false,
        Bool.and_eq_true] at hu
      obtain ⟨⟨⟨h0, h1⟩, h2⟩, h3⟩ := hu
      obtain rfl := isNULL_eq h0
      obtain rfl := isNULL_eq h1
      obtain rfl := isNULL_eq h2
      obtain rfl := isNULL_eq h3
      simp [slotsFilled]
      omega
    · have hn' : n = 1 ∨ n = 2 ∨ n = 3 := by omega
      have ih' := ih (h + 1) (by omega)
      rcases hn' with rfl | rfl | rfl
      · simp [wellShaped] at hT
        obtain ⟨⟨rfl, w0⟩, w1⟩ := hT
        simp [unusedNull] at hu
        obtain ⟨⟨⟨u0, u1⟩, u2⟩, u3⟩ := hu
        obtain rfl := isNULL_eq u2
        obtain rfl := isNULL_eq u3
        simp [slotsFilled, ih' c0 w0 u0, ih' c1 w1 u1]
      · simp [wellShaped] at hT
        obtain ⟨⟨⟨rfl, w0⟩, w1⟩, w2⟩ := hT
        simp [unusedNull] at hu
        obtain ⟨⟨⟨u0, u1⟩, u2⟩, u3⟩ := hu
        obtain rfl := isNULL_eq u3
        simp [slotsFilled, ih' c0 w0 u0, ih' c1 w1 u1, ih' c2 w2 u2]
      · simp [wellShaped] at hT
        obtain ⟨⟨⟨⟨rfl, w0⟩, w1⟩, w2⟩, w3⟩ := hT
        simp [unusedNull] at hu
        obtain ⟨⟨⟨u0, u1⟩, u2⟩, u3⟩ := hu
        simp [slotsFilled, ih' c0 w0 u0, ih' c1 w1 u1, ih' c2 w2 u2, ih' c3 w3 u3]

/-- Where the unused child slots of a valid B-tree are `NULL`, the slot that
`rotateRight` wrongly brings into use holds `NULL`, and every recursive call
that a run of `delete(root, k)` makes is on a node that holds at least `t` keys
and does not replace `root`. -/
theorem callsFilled_of_unusedNull (T : btree) (k : Int) (hv : Valid T)
    (hu : unusedNull T = true) (fuel : Nat) : callsFilled fuel T k = true := by
  rcases hv with rfl | ⟨hsh, -⟩
  · exact (delete_filled fuel NULL k rfl).1
  · exact (delete_filled fuel T k (slotsFilled_of_unusedNull _ T hsh hu)).1

end BTree
